import Mathlib

/-!
Row-level block orchestration of the AfricaQuant integration.

A shallow embedding of `ggml/src/ggml-quants-africa.c`: the four row functions
`quantize_row_africa_1_28_ref`, `dequantize_row_africa_1_28`,
`quantize_row_africa_1_58_ref` and `dequantize_row_africa_1_58`.

Conventions of the embedding.

* A `float` is its IEEE-754 binary32 bit pattern, so that `0.0f`, and the four
  zero bytes `memset` writes, are both the pattern `0`.  The row functions only
  copy and zero floats; they never compute with them.
* A C array is a `List`; a pointer `p + i` is the list together with the offset `i`.
  The caller's output buffer may be longer than what the call writes.
* The row functions return `void` and work by side effect; here they return the
  new contents of the output buffer, together with the log of the calls they made
  to the AfricaQuant C API, in call order.
* `k` is an `int64_t`, modelled by `Int`; `/` and `%` of C are `Int.tdiv` and `Int.tmod`.
-/

namespace AfricaQuant

/-- A binary32 value, as its bit pattern; `0` is `0.0f`. -/
abbrev float := Nat

/-- A byte of packed codes. -/
abbrev uint8_t := Nat

/-- Conversion of a non-negative constant to `uint32_t`. -/
def uint32_t (n : Nat) : Nat := n % 2 ^ 32

/-- Conversion of a non-negative constant to `size_t`. -/
def size_t (n : Nat) : Nat := n % 2 ^ 64

/-- The `QuantizationMeta` structure of the source (lines 58-63). -/
structure QuantizationMeta where
  scale : float
  zero_point : float
  block_size : Nat
  codebook_size : Nat
deriving DecidableEq, Repr

/-- Modelled from the spec: `block_africa_1_28` and `block_africa_1_58` are declared in
`ggml-common.h`, which is not among the sources.  The spec (§3, §6) gives the record as
`{scale: 4-byte float, zero_point: 4-byte float, codes: N bytes}`; the source names the
code array `qs`.  `sizeof(qs)` is the length of the list. -/
structure block_africa where
  scale : float
  zero_point : float
  qs : List uint8_t
deriving DecidableEq, Repr, Inhabited

/-- The block record of the ternary scheme. -/
abbrev block_africa_1_28 := block_africa

/-- The block record of the quaternary scheme. -/
abbrev block_africa_1_58 := block_africa

/-- What a call of `kipepeo_quantize_*` leaves behind: its return value, the contents of
the `output` array and the contents of `*metadata`. -/
structure EncResult where
  success : Bool
  output : List uint8_t
  metadata : QuantizationMeta
deriving DecidableEq, Repr

/-- What a call of `kipepeo_dequantize_*` leaves behind: its return value and the contents
of the `count` floats at `output` (`metadata` is `const`). -/
structure DecResult where
  success : Bool
  output : List float
deriving DecidableEq, Repr

/-- Type of `kipepeo_quantize_1_28bit` and `kipepeo_quantize_1_58bit` (lines 25-31, 41-47):
`weights` are the `count` floats at the pointer, `output` the prior contents of the
destination code array, `metadata` the prior contents of the metadata structure. -/
abbrev QuantizeFn :=
  (weights : List float) → (count : Nat) → (output : List uint8_t) →
  (metadata : QuantizationMeta) → (block_size : Nat) → EncResult

/-- Type of `kipepeo_dequantize_1_28bit` and `kipepeo_dequantize_1_58bit` (lines 33-39,
49-55): `output` is the prior contents of the `count` floats at the destination. -/
abbrev DequantizeFn :=
  (quantized : List uint8_t) → (count : Nat) → (output : List float) →
  (metadata : QuantizationMeta) → (block_size : Nat) → DecResult

/-- What the source takes from outside the file: the two block-size macros of
`ggml-common.h` and the four functions of the AfricaQuant C API, which are deterministic
functions of their arguments here.  The macros are positive (the source divides by them)
and fit `uint32_t` (they are passed as `block_size`); a call writes within the array it
is handed (the code array `qs`, the `count` floats at `output`), so that array keeps its
length. -/
structure Env where
  QK_AFRICA_1_28 : Nat
  QK_AFRICA_1_58 : Nat
  kipepeo_quantize_1_28bit : QuantizeFn
  kipepeo_dequantize_1_28bit : DequantizeFn
  kipepeo_quantize_1_58bit : QuantizeFn
  kipepeo_dequantize_1_58bit : DequantizeFn
  QK_AFRICA_1_28_pos : 0 < QK_AFRICA_1_28
  QK_AFRICA_1_58_pos : 0 < QK_AFRICA_1_58
  QK_AFRICA_1_28_lt : QK_AFRICA_1_28 < 2 ^ 32
  QK_AFRICA_1_58_lt : QK_AFRICA_1_58 < 2 ^ 32
  quantize_1_28bit_length : ∀ w c o m b,
    (kipepeo_quantize_1_28bit w c o m b).output.length = o.length
  quantize_1_58bit_length : ∀ w c o m b,
    (kipepeo_quantize_1_58bit w c o m b).output.length = o.length
  dequantize_1_28bit_length : ∀ q c o m b,
    (kipepeo_dequantize_1_28bit q c o m b).output.length = o.length
  dequantize_1_58bit_length : ∀ q c o m b,
    (kipepeo_dequantize_1_58bit q c o m b).output.length = o.length

/-- The indeterminate contents of the uninitialised locals: `meta.scale` and
`meta.zero_point` of the quantizers before the call for block `i`, and the elements of the
arrays `x_padded` and `temp` when they are declared. -/
structure Indeterminate where
  scale : Nat → float
  zero_point : Nat → float
  x_padded : Nat → float
  temp : Nat → float

/-- One logged call of `kipepeo_quantize_*`: the index `record` of the block record whose
`qs` is passed as `output`, whether `weights` points at the local `x_padded`, and the
arguments. -/
structure EncCall where
  record : Nat
  scratch : Bool
  weights : List float
  count : Nat
  output : List uint8_t
  metadata : QuantizationMeta
  block_size : Nat
deriving DecidableEq, Repr

/-- One logged call of `kipepeo_dequantize_*`: the index `record` of the block record
whose `qs` is passed as `quantized`, whether `output` points at the local `temp`, and the
arguments. -/
structure DecCall where
  record : Nat
  scratch : Bool
  quantized : List uint8_t
  count : Nat
  output : List float
  metadata : QuantizationMeta
  block_size : Nat
deriving DecidableEq, Repr

/-- Overwrite `dst[off .. off + src.length)` with `src`. -/
def store {α : Type} (dst : List α) (off : Nat) (src : List α) : List α :=
  dst.take off ++ src ++ dst.drop (off + src.length)

/-- The call `memcpy(dst + off, src, n * sizeof(float))`: `n` elements are copied. -/
def memcpy {α : Type} (dst : List α) (off : Nat) (src : List α) (n : Nat) : List α :=
  store dst off (src.take n)

/-- The call `memset(dst + off, 0, n * sizeof(*dst))`, the zero bytes of an element being
the element `v`. -/
def memset {α : Type} (dst : List α) (off : Nat) (v : α) (n : Nat) : List α :=
  store dst off (List.replicate n v)

/-- An uninitialised local array of `n` elements. -/
def local_array {α : Type} (n : Nat) (u : Nat → α) : List α := (List.range n).map u

/-! ## The source functions -/

/-- The source function `quantize_row_africa_1_28_ref` (lines 66-131): the output buffer after the call,
and the calls made. -/
def quantize_row_africa_1_28_ref (E : Env) (U : Indeterminate)
    (x : List float) (y : List block_africa_1_28) (k : Int) :
    List block_africa_1_28 × List EncCall :=
  let nb : Int := Int.tdiv k E.QK_AFRICA_1_28
  let st := (List.range nb.toNat).foldl
    (fun (st : List block_africa_1_28 × List EncCall) (i : Nat) =>
      let x_block := (x.drop (i * E.QK_AFRICA_1_28)).take (size_t E.QK_AFRICA_1_28)
      let y_block := st.1.getD i default
      let meta : QuantizationMeta :=
        { scale := U.scale i, zero_point := U.zero_point i,
          block_size := uint32_t E.QK_AFRICA_1_28, codebook_size := 3 }
      let r := E.kipepeo_quantize_1_28bit x_block (size_t E.QK_AFRICA_1_28) y_block.qs meta
        (uint32_t E.QK_AFRICA_1_28)
      let c : EncCall := ⟨i, false, x_block, size_t E.QK_AFRICA_1_28, y_block.qs, meta,
        uint32_t E.QK_AFRICA_1_28⟩
      if r.success then
        (st.1.set i { scale := r.metadata.scale, zero_point := r.metadata.zero_point,
                      qs := r.output }, st.2 ++ [c])
      else
        (st.1.set i { scale := 0, zero_point := 0,
                      qs := memset r.output 0 0 y_block.qs.length }, st.2 ++ [c]))
    (y, [])
  let remainder : Int := Int.tmod k E.QK_AFRICA_1_28
  if remainder > 0 then
    let x_remainder := x.drop (nb.toNat * E.QK_AFRICA_1_28)
    let y_remainder := st.1.getD nb.toNat default
    let x_padded := local_array E.QK_AFRICA_1_28 U.x_padded
    let x_padded := memcpy x_padded 0 x_remainder remainder.toNat
    let x_padded := memset x_padded remainder.toNat 0 (E.QK_AFRICA_1_28 - remainder.toNat)
    let meta : QuantizationMeta :=
      { scale := U.scale nb.toNat, zero_point := U.zero_point nb.toNat,
        block_size := uint32_t E.QK_AFRICA_1_28, codebook_size := 3 }
    let r := E.kipepeo_quantize_1_28bit x_padded (size_t E.QK_AFRICA_1_28) y_remainder.qs meta
      (uint32_t E.QK_AFRICA_1_28)
    let c : EncCall := ⟨nb.toNat, true, x_padded, size_t E.QK_AFRICA_1_28, y_remainder.qs,
      meta, uint32_t E.QK_AFRICA_1_28⟩
    if r.success then
      (st.1.set nb.toNat { scale := r.metadata.scale, zero_point := r.metadata.zero_point,
                           qs := r.output }, st.2 ++ [c])
    else
      (st.1.set nb.toNat { scale := 0, zero_point := 0,
                           qs := memset r.output 0 0 y_remainder.qs.length }, st.2 ++ [c])
  else st

/-- The source function `dequantize_row_africa_1_28` (lines 134-190): the output buffer after the call,
and the calls made. -/
def dequantize_row_africa_1_28 (E : Env) (U : Indeterminate)
    (x : List block_africa_1_28) (y : List float) (k : Int) :
    List float × List DecCall :=
  let nb : Int := Int.tdiv k E.QK_AFRICA_1_28
  let st := (List.range nb.toNat).foldl
    (fun (st : List float × List DecCall) (i : Nat) =>
      let x_block := x.getD i default
      let y_block := (st.1.drop (i * E.QK_AFRICA_1_28)).take (size_t E.QK_AFRICA_1_28)
      let meta : QuantizationMeta :=
        { scale := x_block.scale, zero_point := x_block.zero_point,
          block_size := uint32_t E.QK_AFRICA_1_28, codebook_size := 3 }
      let r := E.kipepeo_dequantize_1_28bit x_block.qs (size_t E.QK_AFRICA_1_28) y_block meta
        (uint32_t E.QK_AFRICA_1_28)
      let c : DecCall := ⟨i, false, x_block.qs, size_t E.QK_AFRICA_1_28, y_block, meta,
        uint32_t E.QK_AFRICA_1_28⟩
      let y1 := store st.1 (i * E.QK_AFRICA_1_28) r.output
      if !r.success then
        (memset y1 (i * E.QK_AFRICA_1_28) 0 E.QK_AFRICA_1_28, st.2 ++ [c])
      else
        (y1, st.2 ++ [c]))
    (y, [])
  let remainder : Int := Int.tmod k E.QK_AFRICA_1_28
  if remainder > 0 then
    let x_remainder := x.getD nb.toNat default
    let meta : QuantizationMeta :=
      { scale := x_remainder.scale, zero_point := x_remainder.zero_point,
        block_size := uint32_t E.QK_AFRICA_1_28, codebook_size := 3 }
    let temp := local_array E.QK_AFRICA_1_28 U.temp
    let r := E.kipepeo_dequantize_1_28bit x_remainder.qs (size_t E.QK_AFRICA_1_28) temp meta
      (uint32_t E.QK_AFRICA_1_28)
    let c : DecCall := ⟨nb.toNat, true, x_remainder.qs, size_t E.QK_AFRICA_1_28, temp, meta,
      uint32_t E.QK_AFRICA_1_28⟩
    let temp := r.output
    if r.success then
      (memcpy st.1 (nb.toNat * E.QK_AFRICA_1_28) temp remainder.toNat, st.2 ++ [c])
    else
      (memset st.1 (nb.toNat * E.QK_AFRICA_1_28) 0 remainder.toNat, st.2 ++ [c])
  else st

/-- The source function `quantize_row_africa_1_58_ref` (lines 193-252): the output buffer after the call,
and the calls made. -/
def quantize_row_africa_1_58_ref (E : Env) (U : Indeterminate)
    (x : List float) (y : List block_africa_1_58) (k : Int) :
    List block_africa_1_58 × List EncCall :=
  let nb : Int := Int.tdiv k E.QK_AFRICA_1_58
  let st := (List.range nb.toNat).foldl
    (fun (st : List block_africa_1_58 × List EncCall) (i : Nat) =>
      let x_block := (x.drop (i * E.QK_AFRICA_1_58)).take (size_t E.QK_AFRICA_1_58)
      let y_block := st.1.getD i default
      let meta : QuantizationMeta :=
        { scale := U.scale i, zero_point := U.zero_point i,
          block_size := uint32_t E.QK_AFRICA_1_58, codebook_size := 4 }
      let r := E.kipepeo_quantize_1_58bit x_block (size_t E.QK_AFRICA_1_58) y_block.qs meta
        (uint32_t E.QK_AFRICA_1_58)
      let c : EncCall := ⟨i, false, x_block, size_t E.QK_AFRICA_1_58, y_block.qs, meta,
        uint32_t E.QK_AFRICA_1_58⟩
      if r.success then
        (st.1.set i { scale := r.metadata.scale, zero_point := r.metadata.zero_point,
                      qs := r.output }, st.2 ++ [c])
      else
        (st.1.set i { scale := 0, zero_point := 0,
                      qs := memset r.output 0 0 y_block.qs.length }, st.2 ++ [c]))
    (y, [])
  let remainder : Int := Int.tmod k E.QK_AFRICA_1_58
  if remainder > 0 then
    let x_remainder := x.drop (nb.toNat * E.QK_AFRICA_1_58)
    let y_remainder := st.1.getD nb.toNat default
    let x_padded := local_array E.QK_AFRICA_1_58 U.x_padded
    let x_padded := memcpy x_padded 0 x_remainder remainder.toNat
    let x_padded := memset x_padded remainder.toNat 0 (E.QK_AFRICA_1_58 - remainder.toNat)
    let meta : QuantizationMeta :=
      { scale := U.scale nb.toNat, zero_point := U.zero_point nb.toNat,
        block_size := uint32_t E.QK_AFRICA_1_58, codebook_size := 4 }
    let r := E.kipepeo_quantize_1_58bit x_padded (size_t E.QK_AFRICA_1_58) y_remainder.qs meta
      (uint32_t E.QK_AFRICA_1_58)
    let c : EncCall := ⟨nb.toNat, true, x_padded, size_t E.QK_AFRICA_1_58, y_remainder.qs,
      meta, uint32_t E.QK_AFRICA_1_58⟩
    if r.success then
      (st.1.set nb.toNat { scale := r.metadata.scale, zero_point := r.metadata.zero_point,
                           qs := r.output }, st.2 ++ [c])
    else
      (st.1.set nb.toNat { scale := 0, zero_point := 0,
                           qs := memset r.output 0 0 y_remainder.qs.length }, st.2 ++ [c])
  else st

/-- The source function `dequantize_row_africa_1_58` (lines 255-307): the output buffer after the call,
and the calls made. -/
def dequantize_row_africa_1_58 (E : Env) (U : Indeterminate)
    (x : List block_africa_1_58) (y : List float) (k : Int) :
    List float × List DecCall :=
  let nb : Int := Int.tdiv k E.QK_AFRICA_1_58
  let st := (List.range nb.toNat).foldl
    (fun (st : List float × List DecCall) (i : Nat) =>
      let x_block := x.getD i default
      let y_block := (st.1.drop (i * E.QK_AFRICA_1_58)).take (size_t E.QK_AFRICA_1_58)
      let meta : QuantizationMeta :=
        { scale := x_block.scale, zero_point := x_block.zero_point,
          block_size := uint32_t E.QK_AFRICA_1_58, codebook_size := 4 }
      let r := E.kipepeo_dequantize_1_58bit x_block.qs (size_t E.QK_AFRICA_1_58) y_block meta
        (uint32_t E.QK_AFRICA_1_58)
      let c : DecCall := ⟨i, false, x_block.qs, size_t E.QK_AFRICA_1_58, y_block, meta,
        uint32_t E.QK_AFRICA_1_58⟩
      let y1 := store st.1 (i * E.QK_AFRICA_1_58) r.output
      if !r.success then
        (memset y1 (i * E.QK_AFRICA_1_58) 0 E.QK_AFRICA_1_58, st.2 ++ [c])
      else
        (y1, st.2 ++ [c]))
    (y, [])
  let remainder : Int := Int.tmod k E.QK_AFRICA_1_58
  if remainder > 0 then
    let x_remainder := x.getD nb.toNat default
    let meta : QuantizationMeta :=
      { scale := x_remainder.scale, zero_point := x_remainder.zero_point,
        block_size := uint32_t E.QK_AFRICA_1_58, codebook_size := 4 }
    let temp := local_array E.QK_AFRICA_1_58 U.temp
    let r := E.kipepeo_dequantize_1_58bit x_remainder.qs (size_t E.QK_AFRICA_1_58) temp meta
      (uint32_t E.QK_AFRICA_1_58)
    let c : DecCall := ⟨nb.toNat, true, x_remainder.qs, size_t E.QK_AFRICA_1_58, temp, meta,
      uint32_t E.QK_AFRICA_1_58⟩
    let temp := r.output
    if r.success then
      (memcpy st.1 (nb.toNat * E.QK_AFRICA_1_58) temp remainder.toNat, st.2 ++ [c])
    else
      (memset st.1 (nb.toNat * E.QK_AFRICA_1_58) 0 remainder.toNat, st.2 ++ [c])
  else st

/-! ## The two schemes, and the row functions by scheme -/

/-- The two schemes of the source: ternary (nominal 1.28 bits) and quaternary (1.58). -/
inductive Scheme where
  | africa_1_28
  | africa_1_58
deriving DecidableEq, Repr

/-- The scheme's block size: `QK_AFRICA_1_28` or `QK_AFRICA_1_58`. -/
def BLOCK_SIZE (E : Env) : Scheme → Nat
  | .africa_1_28 => E.QK_AFRICA_1_28
  | .africa_1_58 => E.QK_AFRICA_1_58

/-- The value the source stores in `meta.codebook_size` (lines 76, 112, 146, 173 and
202, 233, 266, 290). -/
def codebook_size : Scheme → Nat
  | .africa_1_28 => 3
  | .africa_1_58 => 4

/-- The scheme's encode entry point. -/
def encode (E : Env) : Scheme → QuantizeFn
  | .africa_1_28 => E.kipepeo_quantize_1_28bit
  | .africa_1_58 => E.kipepeo_quantize_1_58bit

/-- The scheme's decode entry point. -/
def decode (E : Env) : Scheme → DequantizeFn
  | .africa_1_28 => E.kipepeo_dequantize_1_28bit
  | .africa_1_58 => E.kipepeo_dequantize_1_58bit

/-- The row quantizer of a scheme: one of the two source functions. -/
def quantize_row (E : Env) (U : Indeterminate) :
    Scheme → List float → List block_africa → Int → List block_africa × List EncCall
  | .africa_1_28 => quantize_row_africa_1_28_ref E U
  | .africa_1_58 => quantize_row_africa_1_58_ref E U

/-- The row dequantizer of a scheme: one of the two source functions. -/
def dequantize_row (E : Env) (U : Indeterminate) :
    Scheme → List block_africa → List float → Int → List float × List DecCall
  | .africa_1_28 => dequantize_row_africa_1_28 E U
  | .africa_1_58 => dequantize_row_africa_1_58 E U

/-! ## The partition, and the per-block steps -/

/-- The source's `nb = k / QK` (lines 67, 135, 194, 256). -/
def nb (QK : Nat) (k : Int) : Int := Int.tdiv k QK

/-- The source's `remainder = k % QK` (lines 100, 164, 222, 281). -/
def remainder (QK : Nat) (k : Int) : Int := Int.tmod k QK

/-- The spec's `row.block_count = nb + (remainder > 0 ? 1 : 0)` (§3), as the number of
loop iterations plus the remainder branch. -/
def block_count (QK : Nat) (k : Int) : Nat :=
  (nb QK k).toNat + (if remainder QK k > 0 then 1 else 0)

/-- The metadata a quantizer passes for block `i` (lines 74-76). -/
def encode_meta (QK cb : Nat) (U : Indeterminate) (i : Nat) : QuantizationMeta :=
  { scale := U.scale i, zero_point := U.zero_point i,
    block_size := uint32_t QK, codebook_size := cb }

/-- The metadata a dequantizer passes for the record `x_block` (lines 142-146). -/
def decode_meta (QK cb : Nat) (x_block : block_africa) : QuantizationMeta :=
  { scale := x_block.scale, zero_point := x_block.zero_point,
    block_size := uint32_t QK, codebook_size := cb }

/-- The per-block encode step, lines 73-96 (and again 110-129): one call, then either the
metadata is copied into the record or the record is zeroed. -/
def encode_step (QK cb : Nat) (q : QuantizeFn) (U : Indeterminate) (i : Nat)
    (x_block : List float) (y_block : block_africa) : block_africa :=
  let r := q x_block (size_t QK) y_block.qs (encode_meta QK cb U i) (uint32_t QK)
  if r.success then
    { scale := r.metadata.scale, zero_point := r.metadata.zero_point, qs := r.output }
  else
    { scale := 0, zero_point := 0, qs := List.replicate y_block.qs.length 0 }

/-- The call the encode step of block `i` makes. -/
def encode_call (QK cb : Nat) (U : Indeterminate) (i : Nat) (scratch : Bool)
    (x_block : List float) (y_block : block_africa) : EncCall :=
  ⟨i, scratch, x_block, size_t QK, y_block.qs, encode_meta QK cb U i, uint32_t QK⟩

/-- The result of an encode call, replayed from its log entry. -/
def EncCall.run (q : QuantizeFn) (c : EncCall) : EncResult :=
  q c.weights c.count c.output c.metadata c.block_size

/-- The result of a decode call, replayed from its log entry. -/
def DecCall.run (d : DequantizeFn) (c : DecCall) : DecResult :=
  d c.quantized c.count c.output c.metadata c.block_size

/-- The floats a quantizer passes for a full block: the `QK` floats at `x + i * QK`. -/
def x_block_at (QK : Nat) (x : List float) (i : Nat) : List float :=
  (x.drop (i * QK)).take QK

/-- The padded block of lines 105-108, in closed form: the `r` floats at `x + n * QK`
followed by `QK - r` zeros. -/
def x_padded_at (QK : Nat) (x : List float) (n r : Nat) : List float :=
  (x.drop (n * QK)).take r ++ List.replicate (QK - r) 0

/-- The text the two row quantizers share: `quantize_row_africa_1_28_ref` and
`quantize_row_africa_1_58_ref` differ only in the block-size macro, the codebook size and
the entry point called. -/
def quantize_row_common (QK cb : Nat) (q : QuantizeFn) (U : Indeterminate)
    (x : List float) (y : List block_africa) (k : Int) :
    List block_africa × List EncCall :=
  let nb : Int := Int.tdiv k QK
  let st := (List.range nb.toNat).foldl
    (fun (st : List block_africa × List EncCall) (i : Nat) =>
      let x_block := (x.drop (i * QK)).take (size_t QK)
      let y_block := st.1.getD i default
      let meta : QuantizationMeta :=
        { scale := U.scale i, zero_point := U.zero_point i,
          block_size := uint32_t QK, codebook_size := cb }
      let r := q x_block (size_t QK) y_block.qs meta
        (uint32_t QK)
      let c : EncCall := ⟨i, false, x_block, size_t QK, y_block.qs, meta,
        uint32_t QK⟩
      if r.success then
        (st.1.set i { scale := r.metadata.scale, zero_point := r.metadata.zero_point,
                      qs := r.output }, st.2 ++ [c])
      else
        (st.1.set i { scale := 0, zero_point := 0,
                      qs := memset r.output 0 0 y_block.qs.length }, st.2 ++ [c]))
    (y, [])
  let remainder : Int := Int.tmod k QK
  if remainder > 0 then
    let x_remainder := x.drop (nb.toNat * QK)
    let y_remainder := st.1.getD nb.toNat default
    let x_padded := local_array QK U.x_padded
    let x_padded := memcpy x_padded 0 x_remainder remainder.toNat
    let x_padded := memset x_padded remainder.toNat 0 (QK - remainder.toNat)
    let meta : QuantizationMeta :=
      { scale := U.scale nb.toNat, zero_point := U.zero_point nb.toNat,
        block_size := uint32_t QK, codebook_size := cb }
    let r := q x_padded (size_t QK) y_remainder.qs meta
      (uint32_t QK)
    let c : EncCall := ⟨nb.toNat, true, x_padded, size_t QK, y_remainder.qs,
      meta, uint32_t QK⟩
    if r.success then
      (st.1.set nb.toNat { scale := r.metadata.scale, zero_point := r.metadata.zero_point,
                           qs := r.output }, st.2 ++ [c])
    else
      (st.1.set nb.toNat { scale := 0, zero_point := 0,
                           qs := memset r.output 0 0 y_remainder.qs.length }, st.2 ++ [c])
  else st

/-- The text the two row dequantizers share. -/
def dequantize_row_common (QK cb : Nat) (d : DequantizeFn) (U : Indeterminate)
    (x : List block_africa) (y : List float) (k : Int) :
    List float × List DecCall :=
  let nb : Int := Int.tdiv k QK
  let st := (List.range nb.toNat).foldl
    (fun (st : List float × List DecCall) (i : Nat) =>
      let x_block := x.getD i default
      let y_block := (st.1.drop (i * QK)).take (size_t QK)
      let meta : QuantizationMeta :=
        { scale := x_block.scale, zero_point := x_block.zero_point,
          block_size := uint32_t QK, codebook_size := cb }
      let r := d x_block.qs (size_t QK) y_block meta
        (uint32_t QK)
      let c : DecCall := ⟨i, false, x_block.qs, size_t QK, y_block, meta,
        uint32_t QK⟩
      let y1 := store st.1 (i * QK) r.output
      if !r.success then
        (memset y1 (i * QK) 0 QK, st.2 ++ [c])
      else
        (y1, st.2 ++ [c]))
    (y, [])
  let remainder : Int := Int.tmod k QK
  if remainder > 0 then
    let x_remainder := x.getD nb.toNat default
    let meta : QuantizationMeta :=
      { scale := x_remainder.scale, zero_point := x_remainder.zero_point,
        block_size := uint32_t QK, codebook_size := cb }
    let temp := local_array QK U.temp
    let r := d x_remainder.qs (size_t QK) temp meta
      (uint32_t QK)
    let c : DecCall := ⟨nb.toNat, true, x_remainder.qs, size_t QK, temp, meta,
      uint32_t QK⟩
    let temp := r.output
    if r.success then
      (memcpy st.1 (nb.toNat * QK) temp remainder.toNat, st.2 ++ [c])
    else
      (memset st.1 (nb.toNat * QK) 0 remainder.toNat, st.2 ++ [c])
  else st

/-- The padded block as lines 105-108 build it: the uninitialised local array, the
`memcpy` of the remainder and the `memset` of the rest. -/
def x_padded_src (QK : Nat) (U : Indeterminate) (x : List float) (n r : Nat) : List float :=
  memset (memcpy (local_array QK U.x_padded) 0 (x.drop (n * QK)) r) r 0 (QK - r)

/-- The floats a quantizer passes for block `i` of a row of length `k`, as the source
builds them. -/
def weights_at (QK : Nat) (U : Indeterminate) (x : List float) (k : Int) (i : Nat) :
    List float :=
  if i < (nb QK k).toNat then x_block_at QK x i
  else x_padded_src QK U x (nb QK k).toNat (remainder QK k).toNat

/-- The per-block decode step of a full block, lines 141-160: one call writing into the
block's range, which is zeroed when the call fails.  `y_block` is the prior contents of the
range; the result is its new contents. -/
def decode_step (QK cb : Nat) (d : DequantizeFn) (x_block : block_africa)
    (y_block : List float) : List float :=
  let r := d x_block.qs (size_t QK) y_block (decode_meta QK cb x_block) (uint32_t QK)
  if r.success then r.output else List.replicate QK 0

/-- The call the decode step of record `i` makes. -/
def decode_call (QK cb : Nat) (i : Nat) (scratch : Bool) (x_block : block_africa)
    (y_block : List float) : DecCall :=
  ⟨i, scratch, x_block.qs, size_t QK, y_block, decode_meta QK cb x_block, uint32_t QK⟩

/-- The floats of the remainder range after lines 169-188: the first `r` floats the call
left in `temp`, or `r` zeros when the call fails. -/
def decode_tail (QK cb : Nat) (d : DequantizeFn) (U : Indeterminate)
    (x_block : block_africa) (r : Nat) : List float :=
  let res := d x_block.qs (size_t QK) (local_array QK U.temp) (decode_meta QK cb x_block)
    (uint32_t QK)
  if res.success then res.output.take r else List.replicate r 0

/-- Generic block processing on the encode side (spec §8.2): the per-block encode step
applied independently to each of the `n` consecutive full blocks, in block order. -/
def generic_encode (QK cb : Nat) (q : QuantizeFn) (U : Indeterminate)
    (x : List float) (y : List block_africa) (n : Nat) : List block_africa :=
  (List.range n).map fun i => encode_step QK cb q U i (x_block_at QK x i) (y.getD i default)

/-- Generic block processing on the decode side (spec §8.2): the per-block decode step
applied independently to each of the `n` records, the results concatenated in block
order. -/
def generic_decode (QK cb : Nat) (d : DequantizeFn)
    (x : List block_africa) (y : List float) (n : Nat) : List float :=
  (List.range n).flatMap fun i => decode_step QK cb d (x.getD i default) (x_block_at QK y i)

/-- The log of a row dequantizer for a non-negative length: one call per full block, then
one call on the scratch array when there is a remainder. -/
def decode_log (QK cb : Nat) (U : Indeterminate) (x : List block_africa) (y : List float)
    (k : Int) : List DecCall :=
  (List.range (k.toNat / QK)).map (fun i =>
      decode_call QK cb i false (x.getD i default) (x_block_at QK y i))
    ++ (if 0 < k.toNat % QK then
          [decode_call QK cb (k.toNat / QK) true (x.getD (k.toNat / QK) default)
            (local_array QK U.temp)]
        else [])

/-- The floats a row dequantizer leaves in `y[0 .. k)`: the per-block decode steps of the
full blocks, then the remainder range. -/
def decode_floats (QK cb : Nat) (d : DequantizeFn) (U : Indeterminate)
    (x : List block_africa) (y : List float) (k : Int) : List float :=
  generic_decode QK cb d x y (k.toNat / QK)
    ++ (if 0 < k.toNat % QK then
          decode_tail QK cb d U (x.getD (k.toNat / QK) default) (k.toNat % QK)
        else [])

/-- The floats a row dequantizer leaves in the range of block `i`: the decode step of a
full block, or the remainder range. -/
def decode_block (QK cb : Nat) (d : DequantizeFn) (U : Indeterminate)
    (x : List block_africa) (y : List float) (k : Int) (i : Nat) : List float :=
  if i < k.toNat / QK then decode_step QK cb d (x.getD i default) (x_block_at QK y i)
  else decode_tail QK cb d U (x.getD i default) (k.toNat % QK)

/-! ## A test double of the C API, for concrete evaluation -/

/-- A stand-in for `kipepeo_quantize_*`: it fails, after scribbling over the code array,
when the first weight is `99`; otherwise code `j` is weight `j` modulo the codebook size,
the scale is the sum of the weights and the zero point is `count`. -/
def test_quantize : QuantizeFn := fun weights count output metadata _ =>
  if weights.getD 0 0 = 99 then
    ⟨false, output.map fun _ => 7, metadata⟩
  else
    ⟨true, (List.range output.length).map fun j => weights.getD j 0 % metadata.codebook_size,
      { metadata with scale := weights.sum, zero_point := count }⟩

/-- A stand-in for `kipepeo_dequantize_*`: it fails, after scribbling over the output,
when the first code is `9`; otherwise value `j` is `scale * code j + zero_point`. -/
def test_dequantize : DequantizeFn := fun quantized _ output metadata _ =>
  if quantized.getD 0 0 = 9 then
    ⟨false, output.map fun _ => 5⟩
  else
    ⟨true, (List.range output.length).map fun j =>
      metadata.scale * quantized.getD j 0 + metadata.zero_point⟩

/-- A concrete environment: block size 32 for the ternary scheme (the spec's scenario),
4 for the quaternary one, and the test double as the C API. -/
def test_env : Env where
  QK_AFRICA_1_28 := 32
  QK_AFRICA_1_58 := 4
  kipepeo_quantize_1_28bit := test_quantize
  kipepeo_dequantize_1_28bit := test_dequantize
  kipepeo_quantize_1_58bit := test_quantize
  kipepeo_dequantize_1_58bit := test_dequantize
  QK_AFRICA_1_28_pos := by decide
  QK_AFRICA_1_58_pos := by decide
  QK_AFRICA_1_28_lt := by decide
  QK_AFRICA_1_58_lt := by decide
  quantize_1_28bit_length := by
    intro w c o m b; unfold test_quantize; split <;> simp
  quantize_1_58bit_length := by
    intro w c o m b; unfold test_quantize; split <;> simp
  dequantize_1_28bit_length := by
    intro q c o m b; unfold test_dequantize; split <;> simp
  dequantize_1_58bit_length := by
    intro q c o m b; unfold test_dequantize; split <;> simp

/-- A stand-in for `kipepeo_dequantize_*` that fails without writing anything, when the
first code is `9`: the output then holds what it held before the call.  It decodes as
`test_dequantize` otherwise. -/
def test_dequantize_lazy : DequantizeFn := fun quantized _ output metadata _ =>
  if quantized.getD 0 0 = 9 then
    ⟨false, output⟩
  else
    ⟨true, (List.range output.length).map fun j =>
      metadata.scale * quantized.getD j 0 + metadata.zero_point⟩

/-- The concrete environment with the decoder that fails without writing. -/
def test_env_lazy : Env where
  QK_AFRICA_1_28 := 32
  QK_AFRICA_1_58 := 4
  kipepeo_quantize_1_28bit := test_quantize
  kipepeo_dequantize_1_28bit := test_dequantize_lazy
  kipepeo_quantize_1_58bit := test_quantize
  kipepeo_dequantize_1_58bit := test_dequantize_lazy
  QK_AFRICA_1_28_pos := by decide
  QK_AFRICA_1_58_pos := by decide
  QK_AFRICA_1_28_lt := by decide
  QK_AFRICA_1_58_lt := by decide
  quantize_1_28bit_length := by
    intro w c o m b; unfold test_quantize; split <;> simp
  quantize_1_58bit_length := by
    intro w c o m b; unfold test_quantize; split <;> simp
  dequantize_1_28bit_length := by
    intro q c o m b; unfold test_dequantize_lazy; split <;> simp
  dequantize_1_58bit_length := by
    intro q c o m b; unfold test_dequantize_lazy; split <;> simp

/-- Concrete contents for the uninitialised locals. -/
def test_junk : Indeterminate where
  scale := fun i => 1000 + i
  zero_point := fun i => 2000 + i
  x_padded := fun j => 3000 + j
  temp := fun j => 4000 + j

/-- A caller buffer of `n` block records with `m` code bytes each, holding `8`s. -/
def test_records (n m : Nat) : List block_africa :=
  List.replicate n ⟨8, 8, List.replicate m 8⟩

/-! ## Notions used by the claims on independence and composition -/

/-- The input elements of block `j` of a row of length `k`:
`x[j*QK .. min((j+1)*QK, k))`. -/
def block_elems (QK : Nat) (x : List float) (k : Int) (j : Nat) : List float :=
  ((x.take k.toNat).drop (j * QK)).take QK

/-- Modelled from the spec: §6 gives decode as
`decode(codes, block_size, scale, zero_point) -> (success, values)`, a function of the
codes and the metadata, which §2 says reconstructs the values "or reports failure"; the C
entry points are not among the sources.  So whether a call succeeds, and on success the
values it leaves at `output`, do not depend on what `output` held before the call.  What
a failing call leaves at `output` is free: it may leave the prior contents, or part of
them. -/
def decode_is_function (d : DequantizeFn) : Prop :=
  ∀ q c o o2 m b, o.length = o2.length →
    (d q c o m b).success = (d q c o2 m b).success
    ∧ ((d q c o m b).success = true → (d q c o m b).output = (d q c o2 m b).output)

/-- Modelled from the spec: §6 gives encode as
`encode(values, block_size) -> (success, codes, scale, zero_point)`, a function of the
values; the C entry points are not among the sources.  So whether a call succeeds, and on
success the codes, scale and zero point it leaves, do not depend on what the code array
held before the call nor on the scale and zero point the metadata held. -/
def encode_is_function (q : QuantizeFn) : Prop :=
  ∀ w c o o2 (m m2 : QuantizationMeta) b, o.length = o2.length →
    m.block_size = m2.block_size → m.codebook_size = m2.codebook_size →
    (q w c o m b).success = (q w c o2 m2 b).success
    ∧ ((q w c o m b).success = true →
        (q w c o m b).output = (q w c o2 m2 b).output
        ∧ (q w c o m b).metadata.scale = (q w c o2 m2 b).metadata.scale
        ∧ (q w c o m b).metadata.zero_point = (q w c o2 m2 b).metadata.zero_point)

/-- The uninitialised locals of a call whose blocks are numbered from `n`: the metadata of
its block `i` is that of block `n + i`. -/
def Indeterminate.shift (U : Indeterminate) (n : Nat) : Indeterminate :=
  { U with scale := fun i => U.scale (n + i), zero_point := fun i => U.zero_point (n + i) }

/-! # Theorems -/

/-! ## Machine-integer conversions of the block-size constants -/

theorem size_t_eq {n : Nat} (h : n < 2 ^ 32) : size_t n = n := by
  unfold size_t
  exact Nat.mod_eq_of_lt (lt_trans h (by norm_num))

theorem uint32_t_eq {n : Nat} (h : n < 2 ^ 32) : uint32_t n = n := by
  unfold uint32_t
  exact Nat.mod_eq_of_lt h

theorem BLOCK_SIZE_pos (E : Env) (s : Scheme) : 0 < BLOCK_SIZE E s := by
  cases s
  · exact E.QK_AFRICA_1_28_pos
  · exact E.QK_AFRICA_1_58_pos

theorem BLOCK_SIZE_lt (E : Env) (s : Scheme) : BLOCK_SIZE E s < 2 ^ 32 := by
  cases s
  · exact E.QK_AFRICA_1_28_lt
  · exact E.QK_AFRICA_1_58_lt

theorem encode_length (E : Env) (s : Scheme) (w : List float) (c : Nat) (o : List uint8_t)
    (m : QuantizationMeta) (b : Nat) : (encode E s w c o m b).output.length = o.length := by
  cases s
  · exact E.quantize_1_28bit_length w c o m b
  · exact E.quantize_1_58bit_length w c o m b

theorem decode_length (E : Env) (s : Scheme) (q : List uint8_t) (c : Nat) (o : List float)
    (m : QuantizationMeta) (b : Nat) : (decode E s q c o m b).output.length = o.length := by
  cases s
  · exact E.dequantize_1_28bit_length q c o m b
  · exact E.dequantize_1_58bit_length q c o m b

/-! ## The quantizer loop in closed form -/

/-- A loop that rewrites record `i` at iteration `i` and logs one entry per iteration
rewrites the first `n` records, each from its own prior contents. -/
theorem foldl_set_range {β γ : Type} (d : β) (g : Nat → β → β) (c : Nat → β → γ)
    (y : List β) (t : List γ) (n : Nat) :
    (List.range n).foldl
        (fun (st : List β × List γ) i =>
          (st.1.set i (g i (st.1.getD i d)), st.2 ++ [c i (st.1.getD i d)])) (y, t)
      = (y.mapIdx (fun j b => if j < n then g j b else b),
          t ++ (List.range n).map (fun i => c i (y.getD i d))) := by
  induction n with
  | zero =>
    refine Prod.ext ?_ (by simp)
    apply List.ext_getElem?
    intro j
    simp [List.getElem?_mapIdx]
  | succ n ih =>
    rw [List.range_succ, List.foldl_append, ih]
    simp only [List.foldl_cons, List.foldl_nil, List.map_append, List.map_cons, List.map_nil]
    have hget : (y.mapIdx (fun j b => if j < n then g j b else b)).getD n d = y.getD n d := by
      simp [List.getD_eq_getElem?_getD, List.getElem?_mapIdx]
    rw [hget]
    refine Prod.ext ?_ (by simp [List.append_assoc])
    apply List.ext_getElem?
    intro j
    simp only [List.getElem?_set, List.getElem?_mapIdx, List.length_mapIdx]
    by_cases hj : n = j
    · subst hj
      by_cases hl : n < y.length
      · simp [hl, List.getD_eq_getElem?_getD, List.getElem?_eq_getElem hl]
      · simp [hl, List.getElem?_eq_none (Nat.le_of_not_lt hl)]
    · have : (j < n + 1) = (j < n) := by
        apply propext; omega
      simp [hj, this]

theorem memset_all {α : Type} (l : List α) (v : α) (n : Nat) (h : l.length = n) :
    memset l 0 v n = List.replicate n v := by
  simp [memset, store, h]

/-- The row quantizer in closed form: record `j` of the caller's buffer is rewritten by
the per-block encode step when `j < block_count`, and kept otherwise; one call is logged
per block, in block order. -/
theorem quantize_row_common_eq (QK cb : Nat) (q : QuantizeFn) (U : Indeterminate)
    (x : List float) (y : List block_africa) (k : Int) (hlt : QK < 2 ^ 32)
    (hlen : ∀ w c o m b, (q w c o m b).output.length = o.length) :
    quantize_row_common QK cb q U x y k =
      (y.mapIdx (fun j b =>
          if j < block_count QK k then encode_step QK cb q U j (weights_at QK U x k j) b
          else b),
        (List.range (block_count QK k)).map (fun j =>
          encode_call QK cb U j (decide ((nb QK k).toNat ≤ j)) (weights_at QK U x k j)
            (y.getD j default))) := by
  have hs := size_t_eq hlt
  have hfun : (fun (st : List block_africa × List EncCall) (i : Nat) =>
      let x_block := (x.drop (i * QK)).take (size_t QK)
      let y_block := st.1.getD i default
      let meta : QuantizationMeta :=
        { scale := U.scale i, zero_point := U.zero_point i,
          block_size := uint32_t QK, codebook_size := cb }
      let r := q x_block (size_t QK) y_block.qs meta
        (uint32_t QK)
      let c : EncCall := ⟨i, false, x_block, size_t QK, y_block.qs, meta,
        uint32_t QK⟩
      if r.success then
        (st.1.set i { scale := r.metadata.scale, zero_point := r.metadata.zero_point,
                      qs := r.output }, st.2 ++ [c])
      else
        (st.1.set i { scale := 0, zero_point := 0,
                      qs := memset r.output 0 0 y_block.qs.length }, st.2 ++ [c]))
      = (fun st i =>
          (st.1.set i (encode_step QK cb q U i (x_block_at QK x i) (st.1.getD i default)),
           st.2 ++ [encode_call QK cb U i false (x_block_at QK x i) (st.1.getD i default)])) := by
    funext st i
    simp only [encode_step, encode_call, encode_meta, x_block_at, hs]
    split
    · rfl
    · rw [memset_all _ _ _ (hlen _ _ _ _ _)]
  unfold quantize_row_common
  simp only [hfun, foldl_set_range, List.nil_append]
  have hget : ∀ n : Nat, (y.mapIdx (fun j b =>
      if j < n then encode_step QK cb q U j (x_block_at QK x j) b else b)).getD n default
      = y.getD n default := by
    intro n
    simp [List.getD_eq_getElem?_getD, List.getElem?_mapIdx]
  by_cases hr : Int.tmod k QK > 0
  · have hbc : block_count QK k = (Int.tdiv k QK).toNat + 1 := by
      simp [block_count, nb, remainder, hr]
    rw [if_pos hr, hbc, hget]
    have hstep : ∀ (b : block_africa),
        (if (q (x_padded_src QK U x (Int.tdiv k QK).toNat (Int.tmod k QK).toNat) (size_t QK)
              b.qs (encode_meta QK cb U (Int.tdiv k QK).toNat) (uint32_t QK)).success then
          ({ scale := (q (x_padded_src QK U x (Int.tdiv k QK).toNat (Int.tmod k QK).toNat)
                (size_t QK) b.qs (encode_meta QK cb U (Int.tdiv k QK).toNat)
                (uint32_t QK)).metadata.scale,
             zero_point := (q (x_padded_src QK U x (Int.tdiv k QK).toNat
                (Int.tmod k QK).toNat) (size_t QK) b.qs
                (encode_meta QK cb U (Int.tdiv k QK).toNat) (uint32_t QK)).metadata.zero_point,
             qs := (q (x_padded_src QK U x (Int.tdiv k QK).toNat (Int.tmod k QK).toNat)
                (size_t QK) b.qs (encode_meta QK cb U (Int.tdiv k QK).toNat)
                (uint32_t QK)).output } : block_africa)
        else
          { scale := 0, zero_point := 0,
            qs := memset (q (x_padded_src QK U x (Int.tdiv k QK).toNat (Int.tmod k QK).toNat)
                (size_t QK) b.qs (encode_meta QK cb U (Int.tdiv k QK).toNat)
                (uint32_t QK)).output 0 0 b.qs.length })
        = encode_step QK cb q U (Int.tdiv k QK).toNat
            (x_padded_src QK U x (Int.tdiv k QK).toNat (Int.tmod k QK).toNat) b := by
      intro b
      simp only [encode_step]
      split
      · rfl
      · rw [memset_all _ _ _ (hlen _ _ _ _ _)]
    have hwn : weights_at QK U x k (Int.tdiv k QK).toNat
        = x_padded_src QK U x (Int.tdiv k QK).toNat (Int.tmod k QK).toNat := by
      simp [weights_at, nb, remainder]
    have hpair : ∀ (c : Bool) (l : List block_africa) (n : Nat) (a b : block_africa)
        (t : List EncCall),
        (if c = true then (l.set n a, t) else (l.set n b, t))
          = (l.set n (if c = true then a else b), t) := by
      intro c l n a b t
      split <;> rfl
    rw [hpair]
    refine Prod.ext ?_ ?_
    · show List.set _ _ _ = _
      have := hstep (y.getD (Int.tdiv k QK).toNat default)
      simp only [encode_meta, x_padded_src] at this
      rw [this]
      apply List.ext_getElem?
      intro j
      simp only [List.getElem?_set, List.getElem?_mapIdx, List.length_mapIdx]
      by_cases hj : (Int.tdiv k QK).toNat = j
      · subst hj
        by_cases hl : (Int.tdiv k QK).toNat < y.length
        · simp [hl, List.getD_eq_getElem?_getD, List.getElem?_eq_getElem hl, hwn, x_padded_src]
        · simp [hl, List.getElem?_eq_none (Nat.le_of_not_lt hl)]
      · by_cases hj2 : j < (Int.tdiv k QK).toNat
        · have h3 : j < (Int.tdiv k QK).toNat + 1 := by omega
          simp [hj, hj2, h3, weights_at, nb]
        · have h3 : ¬ j < (Int.tdiv k QK).toNat + 1 := by omega
          simp [hj, hj2, h3]
    · show _ ++ _ = _
      rw [List.range_succ, List.map_append]
      congr 1
      · apply List.map_congr_left
        intro j hj
        have hj2 := List.mem_range.mp hj
        simp [weights_at, nb, hj2, Nat.not_le.mpr hj2]
      · simp [encode_call, encode_meta, hwn, x_padded_src, hs, nb]
  · have hbc : block_count QK k = (Int.tdiv k QK).toNat := by
      simp [block_count, nb, remainder, hr]
    rw [if_neg hr, hbc]
    refine Prod.ext ?_ ?_
    · apply List.ext_getElem?
      intro j
      simp only [List.getElem?_mapIdx]
      by_cases hj : j < (Int.tdiv k QK).toNat
      · simp [hj, weights_at, nb]
      · simp [hj]
    · apply List.map_congr_left
      intro j hj
      have hj2 := List.mem_range.mp hj
      simp [weights_at, nb, hj2, Nat.not_le.mpr hj2]

theorem quantize_row_common_of_scheme (E : Env) (U : Indeterminate) (s : Scheme)
    (x : List float) (y : List block_africa) (k : Int) :
    quantize_row E U s x y k
      = quantize_row_common (BLOCK_SIZE E s) (codebook_size s) (encode E s) U x y k := by
  cases s <;> rfl

theorem dequantize_row_common_of_scheme (E : Env) (U : Indeterminate) (s : Scheme)
    (x : List block_africa) (y : List float) (k : Int) :
    dequantize_row E U s x y k
      = dequantize_row_common (BLOCK_SIZE E s) (codebook_size s) (decode E s) U x y k := by
  cases s <;> rfl

/-- The row quantizer of either scheme in closed form. -/
theorem quantize_row_eq (E : Env) (U : Indeterminate) (s : Scheme)
    (x : List float) (y : List block_africa) (k : Int) :
    quantize_row E U s x y k =
      (y.mapIdx (fun j b =>
          if j < block_count (BLOCK_SIZE E s) k then
            encode_step (BLOCK_SIZE E s) (codebook_size s) (encode E s) U j
              (weights_at (BLOCK_SIZE E s) U x k j) b
          else b),
        (List.range (block_count (BLOCK_SIZE E s) k)).map (fun j =>
          encode_call (BLOCK_SIZE E s) (codebook_size s) U j
            (decide ((nb (BLOCK_SIZE E s) k).toNat ≤ j))
            (weights_at (BLOCK_SIZE E s) U x k j) (y.getD j default))) := by
  rw [quantize_row_common_of_scheme]
  exact quantize_row_common_eq _ _ _ U x y k (BLOCK_SIZE_lt E s) (encode_length E s)

/-! ## The partition -/

theorem nb_toNat (QK : Nat) (k : Int) (hk : 0 ≤ k) : (nb QK k).toNat = k.toNat / QK := by
  obtain ⟨n, rfl⟩ := Int.eq_ofNat_of_zero_le hk
  unfold nb
  rw [← Int.ofNat_tdiv, Int.toNat_ofNat, Int.toNat_ofNat]

theorem remainder_eq (QK : Nat) (k : Int) (hk : 0 ≤ k) :
    remainder QK k = ((k.toNat % QK : Nat) : Int) := by
  obtain ⟨n, rfl⟩ := Int.eq_ofNat_of_zero_le hk
  unfold remainder
  rw [← Int.ofNat_tmod, Int.toNat_ofNat]

theorem remainder_toNat (QK : Nat) (k : Int) (hk : 0 ≤ k) :
    (remainder QK k).toNat = k.toNat % QK := by
  rw [remainder_eq QK k hk, Int.toNat_ofNat]

theorem remainder_pos_iff (QK : Nat) (k : Int) (hk : 0 ≤ k) :
    remainder QK k > 0 ↔ 0 < k.toNat % QK := by
  rw [remainder_eq QK k hk]
  exact Int.natCast_pos

theorem block_count_eq (QK : Nat) (k : Int) (hk : 0 ≤ k) :
    block_count QK k = k.toNat / QK + (if 0 < k.toNat % QK then 1 else 0) := by
  unfold block_count
  rw [nb_toNat QK k hk]
  simp only [remainder_pos_iff QK k hk]

theorem tmod_neg_left (a b : Int) : Int.tmod (-a) b = -Int.tmod a b := by
  have h1 := Int.tdiv_add_tmod (-a) b
  have h2 := Int.tdiv_add_tmod a b
  rw [Int.neg_tdiv, mul_neg] at h1
  linarith

/-- For a non-positive length both partition values are non-positive. -/
theorem block_count_of_nonpos (QK : Nat) (k : Int) (hk : k ≤ 0) : block_count QK k = 0 := by
  obtain ⟨n, rfl⟩ := Int.exists_eq_neg_ofNat hk
  have h1 : Int.tdiv (-(n : Int)) (QK : Int) ≤ 0 := by
    rw [Int.neg_tdiv]
    have := Int.tdiv_nonneg (Int.ofNat_nonneg n) (Int.ofNat_nonneg QK)
    omega
  have h2 : Int.tmod (-(n : Int)) (QK : Int) ≤ 0 := by
    rw [tmod_neg_left]
    have := Int.tmod_nonneg (QK : Int) (Int.ofNat_nonneg n)
    omega
  unfold block_count nb remainder
  rw [Int.toNat_eq_zero.mpr h1, if_neg (not_lt.mpr h2)]

/-! ## Stores into a list -/

theorem store_mid {α : Type} (p mid rest src : List α) (off : Nat)
    (hp : p.length = off) (hm : mid.length = src.length) :
    store (p ++ mid ++ rest) off src = p ++ src ++ rest := by
  unfold store
  have h1 : (p ++ mid ++ rest).take off = p := by
    rw [List.append_assoc]
    exact List.take_left' hp
  have h2 : (p ++ mid ++ rest).drop (off + src.length) = rest := by
    apply List.drop_left'
    simp [hp, hm]
  rw [h1, h2]

theorem length_store {α : Type} (dst src : List α) (off : Nat)
    (h : off + src.length ≤ dst.length) : (store dst off src).length = dst.length := by
  simp [store]
  omega

/-- With the source range in bounds, the padded block is the remainder followed by
zeros. -/
theorem x_padded_src_eq (QK : Nat) (U : Indeterminate) (x : List float) (n r : Nat)
    (hx : n * QK + r ≤ x.length) :
    x_padded_src QK U x n r = x_padded_at QK x n r := by
  have h1 : ((x.drop (n * QK)).take r).length = r := by
    simp
    omega
  unfold x_padded_src x_padded_at memcpy memset
  have h2 : store (local_array QK U.x_padded) 0 ((x.drop (n * QK)).take r)
      = (x.drop (n * QK)).take r ++ (local_array QK U.x_padded).drop r := by
    simp [store, h1]
  rw [h2]
  have h3 : (List.drop r (local_array QK U.x_padded)).length = QK - r := by
    simp [local_array]
  have h4 := store_mid ((x.drop (n * QK)).take r) ((local_array QK U.x_padded).drop r) []
    (List.replicate (QK - r) (0 : float)) r h1 (by simp [h3])
  simpa using h4

/-! ## The dequantizer loop in closed form -/

theorem x_block_at_length (QK : Nat) (y : List float) (i : Nat)
    (h : (i + 1) * QK ≤ y.length) : (x_block_at QK y i).length = QK := by
  have : i * QK + QK ≤ y.length := by
    rw [Nat.add_mul, Nat.one_mul] at h
    exact h
  simp [x_block_at]
  omega

theorem decode_step_length (QK cb : Nat) (d : DequantizeFn)
    (hlen : ∀ q c o m b, (d q c o m b).output.length = o.length)
    (x_block : block_africa) (y_block : List float) (hy : y_block.length = QK) :
    (decode_step QK cb d x_block y_block).length = QK := by
  unfold decode_step
  simp only
  split
  · rw [hlen, hy]
  · simp

theorem generic_decode_succ (QK cb : Nat) (d : DequantizeFn)
    (x : List block_africa) (y : List float) (n : Nat) :
    generic_decode QK cb d x y (n + 1)
      = generic_decode QK cb d x y n
        ++ decode_step QK cb d (x.getD n default) (x_block_at QK y n) := by
  simp [generic_decode, List.range_succ, List.flatMap_append]

theorem generic_decode_length (QK cb : Nat) (d : DequantizeFn)
    (hlen : ∀ q c o m b, (d q c o m b).output.length = o.length)
    (x : List block_africa) (y : List float) (n : Nat) (h : n * QK ≤ y.length) :
    (generic_decode QK cb d x y n).length = n * QK := by
  induction n with
  | zero => simp [generic_decode]
  | succ n ih =>
    have h1 : n * QK ≤ y.length := by
      rw [Nat.add_mul] at h
      omega
    rw [generic_decode_succ, List.length_append, ih h1,
      decode_step_length QK cb d hlen _ _ (x_block_at_length QK y n h), Nat.add_mul,
      Nat.one_mul]

/-- The loop of a row dequantizer after `n` iterations: the first `n` block ranges hold
the per-block decode steps, the rest of the buffer is as it was. -/
theorem dequantize_loop_eq (QK cb : Nat) (d : DequantizeFn)
    (hlt : QK < 2 ^ 32) (hlen : ∀ q c o m b, (d q c o m b).output.length = o.length)
    (x : List block_africa) (y : List float) (n : Nat) (h : n * QK ≤ y.length) :
    (List.range n).foldl
      (fun (st : List float × List DecCall) (i : Nat) =>
        let x_block := x.getD i default
        let y_block := (st.1.drop (i * QK)).take (size_t QK)
        let meta : QuantizationMeta :=
          { scale := x_block.scale, zero_point := x_block.zero_point,
            block_size := uint32_t QK, codebook_size := cb }
        let r := d x_block.qs (size_t QK) y_block meta
          (uint32_t QK)
        let c : DecCall := ⟨i, false, x_block.qs, size_t QK, y_block, meta,
          uint32_t QK⟩
        let y1 := store st.1 (i * QK) r.output
        if !r.success then
          (memset y1 (i * QK) 0 QK, st.2 ++ [c])
        else
          (y1, st.2 ++ [c]))
      (y, [])
    = (generic_decode QK cb d x y n ++ y.drop (n * QK),
        (List.range n).map (fun i =>
          decode_call QK cb i false (x.getD i default) (x_block_at QK y i))) := by
  have hs := size_t_eq hlt
  induction n with
  | zero => simp [generic_decode]
  | succ n ih =>
    have h1 : n * QK ≤ y.length := by
      rw [Nat.add_mul] at h
      omega
    rw [List.range_succ, List.foldl_append, ih h1, generic_decode_succ, List.map_append]
    simp only [List.foldl_cons, List.foldl_nil, hs, decode_step, decode_call, decode_meta,
      x_block_at, List.map_cons, List.map_nil]
    have hG := generic_decode_length QK cb d hlen x y n h1
    have hdrop : (generic_decode QK cb d x y n ++ y.drop (n * QK)).drop (n * QK)
        = y.drop (n * QK) := List.drop_left' hG
    have hblk : ((y.drop (n * QK)).take QK).length = QK := x_block_at_length QK y n h
    have hsplit : generic_decode QK cb d x y n ++ y.drop (n * QK)
        = generic_decode QK cb d x y n ++ (y.drop (n * QK)).take QK
          ++ y.drop ((n + 1) * QK) := by
      rw [List.append_assoc, Nat.add_mul, Nat.one_mul, ← List.drop_drop,
        List.take_append_drop]
    rw [hdrop]
    have hout : ∀ src : List float, src.length = QK →
        store (generic_decode QK cb d x y n ++ y.drop (n * QK)) (n * QK) src
          = generic_decode QK cb d x y n ++ src ++ y.drop ((n + 1) * QK) := by
      intro src hsrc
      rw [hsplit]
      exact store_mid _ _ _ _ _ hG (by rw [hblk, hsrc])
    have hr := hlen (x.getD n default).qs QK ((y.drop (n * QK)).take QK)
      { scale := (x.getD n default).scale, zero_point := (x.getD n default).zero_point,
        block_size := uint32_t QK, codebook_size := cb } (uint32_t QK)
    rw [hblk] at hr
    rw [hout _ hr]
    generalize d (x.getD n default).qs QK ((y.drop (n * QK)).take QK)
      { scale := (x.getD n default).scale, zero_point := (x.getD n default).zero_point,
        block_size := uint32_t QK, codebook_size := cb } (uint32_t QK) = r at hr ⊢
    have hzero : memset (generic_decode QK cb d x y n ++ r.output ++ y.drop ((n + 1) * QK))
          (n * QK) 0 QK
        = generic_decode QK cb d x y n ++ List.replicate QK 0 ++ y.drop ((n + 1) * QK) := by
      unfold memset
      exact store_mid _ _ _ _ _ hG (by rw [hr, List.length_replicate])
    rw [hzero]
    cases hsucc : r.success
    · simp only [Bool.not_false, if_true, Bool.false_eq_true, if_false, List.append_assoc]
    · simp only [Bool.not_true, Bool.false_eq_true, if_false, if_true, List.append_assoc]

theorem local_array_length {α : Type} (n : Nat) (u : Nat → α) :
    (local_array n u).length = n := by
  simp [local_array]

theorem decode_tail_length (QK cb : Nat) (d : DequantizeFn)
    (hlen : ∀ q c o m b, (d q c o m b).output.length = o.length) (U : Indeterminate)
    (x_block : block_africa) (r : Nat) (hr : r ≤ QK) :
    (decode_tail QK cb d U x_block r).length = r := by
  unfold decode_tail
  simp only
  split
  · rw [List.length_take, hlen, local_array_length]
    exact Nat.min_eq_left hr
  · simp

/-- The row dequantizer in closed form, for a non-negative length and an output buffer of
at least `k` floats. -/
theorem dequantize_row_common_eq (QK cb : Nat) (d : DequantizeFn) (U : Indeterminate)
    (x : List block_africa) (y : List float) (k : Int) (hpos : 0 < QK) (hlt : QK < 2 ^ 32)
    (hlen : ∀ q c o m b, (d q c o m b).output.length = o.length)
    (hk : 0 ≤ k) (hy : k.toNat ≤ y.length) :
    dequantize_row_common QK cb d U x y k =
      (decode_floats QK cb d U x y k ++ y.drop k.toNat, decode_log QK cb U x y k) := by
  have hs := size_t_eq hlt
  have hn : (Int.tdiv k QK).toNat = k.toNat / QK := nb_toNat QK k hk
  have hrem : (Int.tmod k QK).toNat = k.toNat % QK := remainder_toNat QK k hk
  have hrp : Int.tmod k QK > 0 ↔ 0 < k.toNat % QK := remainder_pos_iff QK k hk
  have hdm : k.toNat / QK * QK + k.toNat % QK = k.toNat := Nat.div_add_mod' _ _
  have hfull : k.toNat / QK * QK ≤ y.length := by omega
  unfold dequantize_row_common
  simp only [hn, hrem, hrp]
  rw [dequantize_loop_eq QK cb d hlt hlen x y (k.toNat / QK) hfull]
  unfold decode_floats decode_log
  by_cases hr : 0 < k.toNat % QK
  · simp only [if_pos hr, hs]
    have hG := generic_decode_length QK cb d hlen x y (k.toNat / QK) hfull
    have hsplit : generic_decode QK cb d x y (k.toNat / QK) ++ y.drop (k.toNat / QK * QK)
        = generic_decode QK cb d x y (k.toNat / QK)
          ++ (y.drop (k.toNat / QK * QK)).take (k.toNat % QK) ++ y.drop k.toNat := by
      have hd : y.drop k.toNat = (y.drop (k.toNat / QK * QK)).drop (k.toNat % QK) := by
        rw [List.drop_drop]
        congr 1
        omega
      rw [List.append_assoc, hd, List.take_append_drop]
    have hmid : ((y.drop (k.toNat / QK * QK)).take (k.toNat % QK)).length = k.toNat % QK := by
      simp
      omega
    have hout : ∀ src : List float, src.length = k.toNat % QK →
        store (generic_decode QK cb d x y (k.toNat / QK) ++ y.drop (k.toNat / QK * QK))
          (k.toNat / QK * QK) src
          = generic_decode QK cb d x y (k.toNat / QK) ++ src ++ y.drop k.toNat := by
      intro src hsrc
      rw [hsplit]
      exact store_mid _ _ _ _ _ hG (by rw [hmid, hsrc])
    have hle : k.toNat % QK ≤ QK := Nat.le_of_lt (Nat.mod_lt _ hpos)
    have hr2 := hlen (x.getD (k.toNat / QK) default).qs QK (local_array QK U.temp)
      { scale := (x.getD (k.toNat / QK) default).scale,
        zero_point := (x.getD (k.toNat / QK) default).zero_point,
        block_size := uint32_t QK, codebook_size := cb } (uint32_t QK)
    rw [local_array_length] at hr2
    simp only [decode_tail, decode_call, decode_meta, hs, memcpy, memset]
    generalize d (x.getD (k.toNat / QK) default).qs QK (local_array QK U.temp)
      { scale := (x.getD (k.toNat / QK) default).scale,
        zero_point := (x.getD (k.toNat / QK) default).zero_point,
        block_size := uint32_t QK, codebook_size := cb } (uint32_t QK) = r at hr2 ⊢
    have h1 : (r.output.take (k.toNat % QK)).length = k.toNat % QK := by
      rw [List.length_take, hr2]
      exact Nat.min_eq_left hle
    rw [hout _ h1, hout _ (List.length_replicate _ _)]
    cases hsucc : r.success
    · simp only [Bool.false_eq_true, if_false, List.append_assoc]
    · simp only [if_true, List.append_assoc]
  · have h0 : k.toNat % QK = 0 := by omega
    have hk2 : k.toNat / QK * QK = k.toNat := by omega
    simp only [if_neg hr, List.append_nil, hk2]

/-! ## Reading the closed forms -/

theorem quantize_row_getElem? (E : Env) (U : Indeterminate) (s : Scheme)
    (x : List float) (y : List block_africa) (k : Int) (j : Nat) :
    (quantize_row E U s x y k).1[j]? =
      (y[j]?).map (fun b =>
        if j < block_count (BLOCK_SIZE E s) k then
          encode_step (BLOCK_SIZE E s) (codebook_size s) (encode E s) U j
            (weights_at (BLOCK_SIZE E s) U x k j) b
        else b) := by
  rw [quantize_row_eq, List.getElem?_mapIdx]

theorem quantize_row_log (E : Env) (U : Indeterminate) (s : Scheme)
    (x : List float) (y : List block_africa) (k : Int) :
    (quantize_row E U s x y k).2 =
      (List.range (block_count (BLOCK_SIZE E s) k)).map (fun j =>
        encode_call (BLOCK_SIZE E s) (codebook_size s) U j
          (decide ((nb (BLOCK_SIZE E s) k).toNat ≤ j))
          (weights_at (BLOCK_SIZE E s) U x k j) (y.getD j default)) := by
  rw [quantize_row_eq]

theorem quantize_row_log_getElem? (E : Env) (U : Indeterminate) (s : Scheme)
    (x : List float) (y : List block_africa) (k : Int) (j : Nat)
    (hj : j < block_count (BLOCK_SIZE E s) k) :
    (quantize_row E U s x y k).2[j]? =
      some (encode_call (BLOCK_SIZE E s) (codebook_size s) U j
          (decide ((nb (BLOCK_SIZE E s) k).toNat ≤ j))
          (weights_at (BLOCK_SIZE E s) U x k j) (y.getD j default)) := by
  rw [quantize_row_log, List.getElem?_map, List.getElem?_range hj]
  rfl

/-- The row dequantizer of either scheme in closed form. -/
theorem dequantize_row_eq (E : Env) (U : Indeterminate) (s : Scheme)
    (x : List block_africa) (y : List float) (k : Int) (hk : 0 ≤ k)
    (hy : k.toNat ≤ y.length) :
    dequantize_row E U s x y k =
      (decode_floats (BLOCK_SIZE E s) (codebook_size s) (decode E s) U x y k
          ++ y.drop k.toNat,
        decode_log (BLOCK_SIZE E s) (codebook_size s) U x y k) := by
  rw [dequantize_row_common_of_scheme]
  exact dequantize_row_common_eq _ _ _ U x y k (BLOCK_SIZE_pos E s) (BLOCK_SIZE_lt E s)
    (decode_length E s) hk hy

theorem decode_log_records (QK cb : Nat) (U : Indeterminate) (x : List block_africa)
    (y : List float) (k : Int) (hk : 0 ≤ k) :
    (decode_log QK cb U x y k).map DecCall.record = List.range (block_count QK k) := by
  rw [block_count_eq QK k hk]
  unfold decode_log
  by_cases hr : 0 < k.toNat % QK
  · simp [hr, List.range_succ, decode_call, Function.comp_def]
  · simp [hr, decode_call, Function.comp_def]

theorem ceil_div_nat (n QK : Nat) (hQ : 0 < QK) :
    ⌈(n : ℚ) / (QK : ℚ)⌉ = ((n / QK + (if 0 < n % QK then 1 else 0) : Nat) : Int) := by
  have hdm := Nat.div_add_mod n QK
  have hr := Nat.mod_lt n hQ
  generalize n / QK = q at hdm ⊢
  generalize n % QK = r at hdm hr ⊢
  subst hdm
  rw [Int.ceil_eq_iff]
  have hQ' : (0 : ℚ) < QK := by exact_mod_cast hQ
  have hlt : (r : ℚ) < QK := by exact_mod_cast hr
  by_cases h : 0 < r
  · have h' : (0 : ℚ) < (r : ℚ) := by exact_mod_cast h
    simp only [if_pos h]
    push_cast
    constructor
    · rw [lt_div_iff₀ hQ']
      linarith
    · rw [div_le_iff₀ hQ']
      linarith
  · have h' : r = 0 := by omega
    subst h'
    simp only [if_neg h]
    push_cast
    constructor
    · rw [lt_div_iff₀ hQ']
      linarith
    · rw [div_le_iff₀ hQ']
      linarith

theorem block_count_eq_ceil (QK : Nat) (k : Int) (hQ : 0 < QK) (hk : 0 ≤ k) :
    (block_count QK k : Int) = ⌈(k : ℚ) / (QK : ℚ)⌉ := by
  rw [block_count_eq QK k hk]
  obtain ⟨n, rfl⟩ := Int.eq_ofNat_of_zero_le hk
  rw [Int.toNat_ofNat]
  have hcast : (((n : Int) : ℚ)) = (n : ℚ) := by norm_cast
  rw [hcast, ceil_div_nat n QK hQ]

/-! ## The claims -/

/-- C1: for each scheme and every row length `k ≥ 0`, the block records the row quantizer
writes are records `0, 1, …, n - 1` and the block records the row dequantizer reads are
records `0, 1, …, n - 1`, one per logged call, where
`n = nb + (1 if k % BLOCK_SIZE > 0 else 0)` and `nb = k / BLOCK_SIZE`; and `n` is
`ceil(k / BLOCK_SIZE)`. -/
theorem C1_block_count (E : Env) (U : Indeterminate) (s : Scheme)
    (x : List float) (y : List block_africa) (xq : List block_africa) (yf : List float)
    (k : Int) (hk : 0 ≤ k) (hyf : k.toNat ≤ yf.length) :
    (quantize_row E U s x y k).2.map EncCall.record
        = List.range ((nb (BLOCK_SIZE E s) k).toNat
            + (if remainder (BLOCK_SIZE E s) k > 0 then 1 else 0))
    ∧ (dequantize_row E U s xq yf k).2.map DecCall.record
        = List.range ((nb (BLOCK_SIZE E s) k).toNat
            + (if remainder (BLOCK_SIZE E s) k > 0 then 1 else 0))
    ∧ (quantize_row E U s x y k).2.length
        = (nb (BLOCK_SIZE E s) k).toNat + (if remainder (BLOCK_SIZE E s) k > 0 then 1 else 0)
    ∧ (dequantize_row E U s xq yf k).2.length
        = (nb (BLOCK_SIZE E s) k).toNat + (if remainder (BLOCK_SIZE E s) k > 0 then 1 else 0)
    ∧ (((nb (BLOCK_SIZE E s) k).toNat
          + (if remainder (BLOCK_SIZE E s) k > 0 then 1 else 0) : Nat) : Int)
        = ⌈(k : ℚ) / (BLOCK_SIZE E s : ℚ)⌉ := by
  have hq : (quantize_row E U s x y k).2.map EncCall.record
      = List.range (block_count (BLOCK_SIZE E s) k) := by
    rw [quantize_row_log, List.map_map]
    conv_rhs => rw [← List.map_id (List.range _)]
    rfl
  have hd : (dequantize_row E U s xq yf k).2.map DecCall.record
      = List.range (block_count (BLOCK_SIZE E s) k) := by
    rw [dequantize_row_eq E U s xq yf k hk hyf]
    exact decode_log_records _ _ U xq yf k hk
  refine ⟨hq, hd, ?_, ?_, block_count_eq_ceil _ k (BLOCK_SIZE_pos E s) hk⟩
  · have := congrArg List.length hq
    simpa [block_count] using this
  · have := congrArg List.length hd
    simpa [block_count] using this

/-- C1 at the spec's scenario: `k = 40` with block size 32 gives two records. -/
theorem C1_block_count_witness :
    ((0 : Int) ≤ 40 ∧ (40 : Int).toNat ≤ (List.replicate 40 (0 : float)).length)
    ∧ BLOCK_SIZE test_env .africa_1_28 = 32
    ∧ (quantize_row test_env test_junk .africa_1_28 (List.range 40) (test_records 2 8)
        40).2.length = 2
    ∧ (dequantize_row test_env test_junk .africa_1_28 (test_records 2 8)
        (List.replicate 40 0) 40).2.length = 2
    ∧ ⌈((40 : Int) : ℚ) / ((BLOCK_SIZE test_env .africa_1_28 : Nat) : ℚ)⌉ = 2 := by
  have h := C1_block_count test_env test_junk .africa_1_28 (List.range 40)
    (test_records 2 8) (test_records 2 8) (List.replicate 40 0) 40 (by decide) (by decide)
  refine ⟨⟨by decide, by decide⟩, rfl, ?_, ?_, ?_⟩
  · exact h.2.2.1
  · exact h.2.2.2.1
  · exact h.2.2.2.2.symm.trans (by decide)

theorem encode_step_congr (QK cb : Nat) (q q' : QuantizeFn) (U : Indeterminate) (i : Nat)
    (sc : Bool) (w : List float) (b : block_africa)
    (h : (encode_call QK cb U i sc w b).run q' = (encode_call QK cb U i sc w b).run q) :
    encode_step QK cb q' U i w b = encode_step QK cb q U i w b := by
  have h' : q' w (size_t QK) b.qs (encode_meta QK cb U i) (uint32_t QK)
      = q w (size_t QK) b.qs (encode_meta QK cb U i) (uint32_t QK) := h
  simp only [encode_step, h']

theorem getD_of_getElem? {α : Type} (l : List α) (i : Nat) (a d : α) (h : l[i]? = some a) :
    l.getD i d = a := by
  rw [List.getD_eq_getElem?_getD, h]
  rfl

theorem quantize_row_log_length (E : Env) (U : Indeterminate) (s : Scheme)
    (x : List float) (y : List block_africa) (k : Int) :
    (quantize_row E U s x y k).2.length = block_count (BLOCK_SIZE E s) k := by
  rw [quantize_row_log]
  simp

/-- C2: for each scheme, every row length and every block `j` of the row (full or
remainder) whose record exists in the caller's array, if the call logged for block `j`
reports failure then record `j` has scale 0, zero point 0 and all codes 0 after the row
quantizer returns, whatever the call left in the code array; and every other record is what
it is under any other C API that answers the calls of the other blocks the same way, such
as one that succeeds on block `j`. -/
theorem C2_encode_failure (E : Env) (U : Indeterminate) (s : Scheme)
    (x : List float) (y : List block_africa) (k : Int) (j : Nat) (yb : block_africa)
    (c : EncCall) (hy : y[j]? = some yb)
    (hc : (quantize_row E U s x y k).2[j]? = some c)
    (hfail : (c.run (encode E s)).success = false) :
    c.record = j
    ∧ (quantize_row E U s x y k).1[j]?
        = some { scale := 0, zero_point := 0, qs := List.replicate yb.qs.length 0 }
    ∧ ∀ E' : Env, BLOCK_SIZE E' s = BLOCK_SIZE E s →
        (∀ c' ∈ (quantize_row E U s x y k).2, c'.record ≠ j →
          c'.run (encode E' s) = c'.run (encode E s)) →
        ∀ i, i ≠ j →
          (quantize_row E' U s x y k).1[i]? = (quantize_row E U s x y k).1[i]? := by
  have hj : j < block_count (BLOCK_SIZE E s) k := by
    have h1 : j < (quantize_row E U s x y k).2.length := by
      by_contra hcon
      rw [List.getElem?_eq_none (Nat.le_of_not_lt hcon)] at hc
      exact Option.noConfusion hc
    rwa [quantize_row_log_length] at h1
  rw [quantize_row_log_getElem? E U s x y k j hj] at hc
  have hc' := Option.some.inj hc
  have hyb := getD_of_getElem? y j yb default hy
  rw [hyb] at hc'
  subst hc'
  refine ⟨rfl, ?_, ?_⟩
  · rw [quantize_row_getElem?, hy]
    simp only [Option.map_some', if_pos hj]
    have hf : (encode E s (weights_at (BLOCK_SIZE E s) U x k j) (size_t (BLOCK_SIZE E s))
        yb.qs (encode_meta (BLOCK_SIZE E s) (codebook_size s) U j)
        (uint32_t (BLOCK_SIZE E s))).success = false := hfail
    simp only [encode_step, hf, Bool.false_eq_true, if_false]
  · intro E' hBS hagree i hij
    rw [quantize_row_getElem?, quantize_row_getElem?, hBS]
    cases hyi : y[i]? with
    | none => rfl
    | some b =>
      simp only [Option.map_some']
      by_cases hi : i < block_count (BLOCK_SIZE E s) k
      · simp only [if_pos hi]
        congr 1
        apply encode_step_congr (BLOCK_SIZE E s) (codebook_size s) (encode E s) (encode E' s)
          U i (decide ((nb (BLOCK_SIZE E s) k).toNat ≤ i))
        apply hagree
        · rw [quantize_row_log]
          apply List.mem_map.mpr
          refine ⟨i, List.mem_range.mpr hi, ?_⟩
          rw [getD_of_getElem? y i b default hyi]
        · exact hij
      · simp only [if_neg hi]

/-- C2 on a row of ten floats in blocks of four whose second block makes the test double
fail: its record is zeroed, the scribbled codes included. -/
theorem C2_encode_failure_witness :
    ((test_records 4 2)[1]? = some ⟨8, 8, [8, 8]⟩
      ∧ (quantize_row test_env test_junk .africa_1_58 [1, 2, 3, 4, 99, 5, 6, 7, 1, 1]
          (test_records 4 2) 10).2[1]?
          = some ⟨1, false, [99, 5, 6, 7], 4, [8, 8], ⟨1001, 2001, 4, 4⟩, 4⟩
      ∧ (EncCall.run (encode test_env .africa_1_58)
          ⟨1, false, [99, 5, 6, 7], 4, [8, 8], ⟨1001, 2001, 4, 4⟩, 4⟩).success = false
      ∧ (EncCall.run (encode test_env .africa_1_58)
          ⟨1, false, [99, 5, 6, 7], 4, [8, 8], ⟨1001, 2001, 4, 4⟩, 4⟩).output = [7, 7])
    ∧ (quantize_row test_env test_junk .africa_1_58 [1, 2, 3, 4, 99, 5, 6, 7, 1, 1]
        (test_records 4 2) 10).1[1]? = some ⟨0, 0, [0, 0]⟩ :=
  ⟨⟨by decide, by decide, by decide, by decide⟩,
    (C2_encode_failure test_env test_junk .africa_1_58 [1, 2, 3, 4, 99, 5, 6, 7, 1, 1]
      (test_records 4 2) 10 1 ⟨8, 8, [8, 8]⟩
      ⟨1, false, [99, 5, 6, 7], 4, [8, 8], ⟨1001, 2001, 4, 4⟩, 4⟩
      (by decide) (by decide) (by decide)).2.1⟩

theorem lt_nb_toNat (QK : Nat) (k : Int) (i : Nat) (hi : (i : Int) < nb QK k) :
    i < (nb QK k).toNat := by
  omega

theorem full_block_in_row (QK : Nat) (k : Int) (i : Nat) (hk : 0 ≤ k)
    (hi : i < (nb QK k).toNat) : (i + 1) * QK ≤ k.toNat := by
  rw [nb_toNat QK k hk] at hi
  calc (i + 1) * QK ≤ (k.toNat / QK) * QK := Nat.mul_le_mul_right QK hi
    _ ≤ k.toNat := Nat.div_mul_le_self _ _

theorem lt_block_count_of_lt_nb (QK : Nat) (k : Int) (i : Nat)
    (hi : i < (nb QK k).toNat) : i < block_count QK k := by
  unfold block_count
  omega

theorem weights_at_full (QK : Nat) (U : Indeterminate) (x : List float) (k : Int) (i : Nat)
    (hi : i < (nb QK k).toNat) : weights_at QK U x k i = x_block_at QK x i := by
  simp [weights_at, hi]

theorem weights_at_tail (QK : Nat) (U : Indeterminate) (x : List float) (k : Int)
    (hk : 0 ≤ k) (hx : k.toNat ≤ x.length) :
    weights_at QK U x k (nb QK k).toNat
      = x_padded_at QK x (nb QK k).toNat (remainder QK k).toNat := by
  have h : (nb QK k).toNat * QK + (remainder QK k).toNat = k.toNat := by
    rw [nb_toNat QK k hk, remainder_toNat QK k hk]
    exact Nat.div_add_mod' _ _
  simp only [weights_at, lt_irrefl, if_false]
  exact x_padded_src_eq QK U x _ _ (by omega)

/-- C4: for each scheme, every row length `k ≥ 0` of a row held by `x`, and every full
block `i < nb` whose record exists in the caller's array, call `i` of the row quantizer is
the scheme's encode on the `BLOCK_SIZE` floats `x[i*BLOCK_SIZE .. i*BLOCK_SIZE+BLOCK_SIZE)`
with `count = block_size = BLOCK_SIZE` and `codebook_size` 3 (1.28) or 4 (1.58); and when
that call succeeds, record `i` holds the codes the call produced and the scale and zero
point the call left in the metadata. -/
theorem C4_encode_full (E : Env) (U : Indeterminate) (s : Scheme)
    (x : List float) (y : List block_africa) (k : Int) (i : Nat) (yb : block_africa)
    (hk : 0 ≤ k) (hx : k.toNat ≤ x.length) (hi : (i : Int) < nb (BLOCK_SIZE E s) k)
    (hy : y[i]? = some yb) :
    (quantize_row E U s x y k).2[i]? = some
        { record := i, scratch := false,
          weights := (x.drop (i * BLOCK_SIZE E s)).take (BLOCK_SIZE E s),
          count := BLOCK_SIZE E s, output := yb.qs,
          metadata := { scale := U.scale i, zero_point := U.zero_point i,
                        block_size := BLOCK_SIZE E s, codebook_size := codebook_size s },
          block_size := BLOCK_SIZE E s }
    ∧ ((x.drop (i * BLOCK_SIZE E s)).take (BLOCK_SIZE E s)).length = BLOCK_SIZE E s
    ∧ codebook_size s = (match s with | .africa_1_28 => 3 | .africa_1_58 => 4)
    ∧ ∀ r : EncResult,
        r = encode E s ((x.drop (i * BLOCK_SIZE E s)).take (BLOCK_SIZE E s)) (BLOCK_SIZE E s)
              yb.qs
              { scale := U.scale i, zero_point := U.zero_point i,
                block_size := BLOCK_SIZE E s, codebook_size := codebook_size s }
              (BLOCK_SIZE E s) →
        r.success = true →
        (quantize_row E U s x y k).1[i]?
          = some { scale := r.metadata.scale, zero_point := r.metadata.zero_point,
                   qs := r.output } := by
  have hi' := lt_nb_toNat _ k i hi
  have hbc := lt_block_count_of_lt_nb _ k i hi'
  have hs := size_t_eq (BLOCK_SIZE_lt E s)
  have hu := uint32_t_eq (BLOCK_SIZE_lt E s)
  have hyb := getD_of_getElem? y i yb default hy
  refine ⟨?_, ?_, ?_, ?_⟩
  · rw [quantize_row_log_getElem? E U s x y k i hbc, weights_at_full _ U x k i hi', hyb]
    simp [encode_call, encode_meta, x_block_at, hs, hu, Nat.not_le.mpr hi']
  · exact x_block_at_length _ x i
      (le_trans (full_block_in_row _ k i hk hi') hx)
  · cases s <;> rfl
  · intro r hr hsucc
    rw [quantize_row_getElem?, hy]
    simp only [Option.map_some', if_pos hbc, weights_at_full _ U x k i hi']
    simp only [encode_step, encode_meta, x_block_at, hs, hu]
    rw [← hr, if_pos hsucc]

/-- C4 on the first block of a row of ten floats in blocks of four. -/
theorem C4_encode_full_witness :
    ((0 : Int) ≤ 10 ∧ (10 : Int).toNat ≤ [1, 2, 3, 4, 99, 5, 6, 7, 1, 1].length
      ∧ ((0 : Nat) : Int) < nb (BLOCK_SIZE test_env .africa_1_58) 10
      ∧ (test_records 4 2)[0]? = some ⟨8, 8, [8, 8]⟩)
    ∧ (quantize_row test_env test_junk .africa_1_58 [1, 2, 3, 4, 99, 5, 6, 7, 1, 1]
        (test_records 4 2) 10).2[0]?
        = some ⟨0, false, [1, 2, 3, 4], 4, [8, 8], ⟨1000, 2000, 4, 4⟩, 4⟩ :=
  ⟨⟨by decide, by decide, by decide, by decide⟩,
    (C4_encode_full test_env test_junk .africa_1_58 [1, 2, 3, 4, 99, 5, 6, 7, 1, 1]
      (test_records 4 2) 10 0 ⟨8, 8, [8, 8]⟩ (by decide) (by decide) (by decide)
      (by decide)).1⟩

/-- C5: for each scheme and every row length `k ≥ 0` of a row held by `x` with
`remainder = k % BLOCK_SIZE > 0`, record `nb` is the per-block encode step (strategy
codes, scale and zero point on success, the all-zero record on failure) applied to the
block of `BLOCK_SIZE` floats made of `x[nb*BLOCK_SIZE .. k)` followed by
`BLOCK_SIZE - remainder` zeros; the full blocks go through the same step on their own
slices. -/
theorem C5_encode_remainder (E : Env) (U : Indeterminate) (s : Scheme)
    (x : List float) (y : List block_africa) (k : Int) (yb : block_africa)
    (hk : 0 ≤ k) (hx : k.toNat ≤ x.length) (hr : remainder (BLOCK_SIZE E s) k > 0)
    (hy : y[(nb (BLOCK_SIZE E s) k).toNat]? = some yb) :
    (quantize_row E U s x y k).1[(nb (BLOCK_SIZE E s) k).toNat]?
        = some (encode_step (BLOCK_SIZE E s) (codebook_size s) (encode E s) U
            (nb (BLOCK_SIZE E s) k).toNat
            ((x.drop ((nb (BLOCK_SIZE E s) k).toNat * BLOCK_SIZE E s)).take
                (remainder (BLOCK_SIZE E s) k).toNat
              ++ List.replicate (BLOCK_SIZE E s - (remainder (BLOCK_SIZE E s) k).toNat) 0)
            yb)
    ∧ ((x.drop ((nb (BLOCK_SIZE E s) k).toNat * BLOCK_SIZE E s)).take
          (remainder (BLOCK_SIZE E s) k).toNat
        ++ List.replicate (BLOCK_SIZE E s - (remainder (BLOCK_SIZE E s) k).toNat)
            (0 : float)).length = BLOCK_SIZE E s
    ∧ (x.drop ((nb (BLOCK_SIZE E s) k).toNat * BLOCK_SIZE E s)).take
          (remainder (BLOCK_SIZE E s) k).toNat
        = (x.take k.toNat).drop ((nb (BLOCK_SIZE E s) k).toNat * BLOCK_SIZE E s)
    ∧ (∀ i b, i < (nb (BLOCK_SIZE E s) k).toNat → y[i]? = some b →
        (quantize_row E U s x y k).1[i]?
          = some (encode_step (BLOCK_SIZE E s) (codebook_size s) (encode E s) U i
              ((x.drop (i * BLOCK_SIZE E s)).take (BLOCK_SIZE E s)) b)) := by
  have hbc : (nb (BLOCK_SIZE E s) k).toNat < block_count (BLOCK_SIZE E s) k := by
    simp [block_count, hr]
  have hdm : (nb (BLOCK_SIZE E s) k).toNat * BLOCK_SIZE E s
      + (remainder (BLOCK_SIZE E s) k).toNat = k.toNat := by
    rw [nb_toNat _ k hk, remainder_toNat _ k hk]
    exact Nat.div_add_mod' _ _
  have hrl : (remainder (BLOCK_SIZE E s) k).toNat < BLOCK_SIZE E s := by
    rw [remainder_toNat _ k hk]
    exact Nat.mod_lt _ (BLOCK_SIZE_pos E s)
  refine ⟨?_, ?_, ?_, ?_⟩
  · rw [quantize_row_getElem?, hy]
    simp only [Option.map_some', if_pos hbc, weights_at_tail _ U x k hk hx]
    rfl
  · simp
    omega
  · rw [List.drop_take]
    congr 1
    omega
  · intro i b hi hyi
    rw [quantize_row_getElem?, hyi]
    simp only [Option.map_some', if_pos (lt_block_count_of_lt_nb _ k i hi),
      weights_at_full _ U x k i hi]
    rfl

/-- C5 at the spec's scenario: `k = 40` with block size 32, where record 1 is the encoding
of `x[32..40)` followed by 24 zeros. -/
theorem C5_encode_remainder_witness :
    ((0 : Int) ≤ 40 ∧ (40 : Int).toNat ≤ (List.range 40).length
      ∧ remainder (BLOCK_SIZE test_env .africa_1_28) 40 > 0
      ∧ (test_records 2 8)[(nb (BLOCK_SIZE test_env .africa_1_28) 40).toNat]?
          = some ⟨8, 8, List.replicate 8 8⟩)
    ∧ (nb (BLOCK_SIZE test_env .africa_1_28) 40).toNat = 1
    ∧ (quantize_row test_env test_junk .africa_1_28 (List.range 40) (test_records 2 8)
        40).1[(nb (BLOCK_SIZE test_env .africa_1_28) 40).toNat]?
        = some (encode_step 32 3 test_quantize test_junk 1
            ([32, 33, 34, 35, 36, 37, 38, 39] ++ List.replicate 24 0)
            ⟨8, 8, List.replicate 8 8⟩) :=
  ⟨⟨by decide, by decide, by decide, by decide⟩, by decide,
    (C5_encode_remainder test_env test_junk .africa_1_28 (List.range 40) (test_records 2 8)
      40 ⟨8, 8, List.replicate 8 8⟩ (by decide) (by decide) (by decide) (by decide)).1⟩

/-! ## Reading the dequantizer's output -/

theorem getElem?_of_slice {α : Type} (l s : List α) (a n p : Nat)
    (h : (l.drop a).take n = s) (h1 : a ≤ p) (h2 : p < a + n) : l[p]? = s[p - a]? := by
  rw [← h, List.getElem?_take, if_pos (by omega), List.getElem?_drop]
  congr 1
  omega

theorem generic_decode_slice (QK cb : Nat) (d : DequantizeFn)
    (hlen : ∀ q c o m b, (d q c o m b).output.length = o.length)
    (x : List block_africa) (y : List float) (n : Nat) (h : n * QK ≤ y.length)
    (i : Nat) (hi : i < n) (rest : List float) :
    ((generic_decode QK cb d x y n ++ rest).drop (i * QK)).take QK
      = decode_step QK cb d (x.getD i default) (x_block_at QK y i) := by
  induction n generalizing rest with
  | zero => omega
  | succ n ih =>
    have h1 : n * QK ≤ y.length := by
      rw [Nat.add_mul] at h
      omega
    rw [generic_decode_succ, List.append_assoc]
    by_cases hin : i < n
    · exact ih h1 hin _
    · have hi' : i = n := by omega
      subst hi'
      rw [List.drop_left' (generic_decode_length QK cb d hlen x y i h1)]
      exact List.take_left'
        (decode_step_length QK cb d hlen _ _ (x_block_at_length QK y i h))

theorem decode_floats_length (QK cb : Nat) (d : DequantizeFn) (hpos : 0 < QK)
    (hlen : ∀ q c o m b, (d q c o m b).output.length = o.length) (U : Indeterminate)
    (x : List block_africa) (y : List float) (k : Int) (hy : k.toNat ≤ y.length) :
    (decode_floats QK cb d U x y k).length = k.toNat := by
  have hdm : k.toNat / QK * QK + k.toNat % QK = k.toNat := Nat.div_add_mod' _ _
  unfold decode_floats
  rw [List.length_append, generic_decode_length QK cb d hlen x y _ (by omega)]
  by_cases hr : 0 < k.toNat % QK
  · rw [if_pos hr, decode_tail_length QK cb d hlen U _ _
      (Nat.le_of_lt (Nat.mod_lt _ hpos))]
    exact hdm
  · rw [if_neg hr, List.length_nil]
    omega

theorem decode_floats_full_slice (QK cb : Nat) (d : DequantizeFn)
    (hlen : ∀ q c o m b, (d q c o m b).output.length = o.length) (U : Indeterminate)
    (x : List block_africa) (y : List float) (k : Int) (hy : k.toNat ≤ y.length)
    (i : Nat) (hi : i < k.toNat / QK) (rest : List float) :
    ((decode_floats QK cb d U x y k ++ rest).drop (i * QK)).take QK
      = decode_step QK cb d (x.getD i default) (x_block_at QK y i) := by
  have hdm : k.toNat / QK * QK + k.toNat % QK = k.toNat := Nat.div_add_mod' _ _
  unfold decode_floats
  rw [List.append_assoc]
  exact generic_decode_slice QK cb d hlen x y _ (by omega) i hi _

theorem decode_floats_tail_slice (QK cb : Nat) (d : DequantizeFn) (hpos : 0 < QK)
    (hlen : ∀ q c o m b, (d q c o m b).output.length = o.length) (U : Indeterminate)
    (x : List block_africa) (y : List float) (k : Int) (hy : k.toNat ≤ y.length)
    (hr : 0 < k.toNat % QK) (rest : List float) :
    ((decode_floats QK cb d U x y k ++ rest).drop (k.toNat / QK * QK)).take (k.toNat % QK)
      = decode_tail QK cb d U (x.getD (k.toNat / QK) default) (k.toNat % QK) := by
  have hdm : k.toNat / QK * QK + k.toNat % QK = k.toNat := Nat.div_add_mod' _ _
  unfold decode_floats
  rw [if_pos hr, List.append_assoc,
    List.drop_left' (generic_decode_length QK cb d hlen x y _ (by omega))]
  exact List.take_left'
    (decode_tail_length QK cb d hlen U _ _ (Nat.le_of_lt (Nat.mod_lt _ hpos)))

theorem dequantize_row_length (E : Env) (U : Indeterminate) (s : Scheme)
    (x : List block_africa) (y : List float) (k : Int) (hk : 0 ≤ k)
    (hy : k.toNat ≤ y.length) : (dequantize_row E U s x y k).1.length = y.length := by
  rw [dequantize_row_eq E U s x y k hk hy]
  simp only [List.length_append, List.length_drop]
  rw [decode_floats_length _ _ _ (BLOCK_SIZE_pos E s) (decode_length E s) U x y k hy]
  omega

theorem dequantize_row_frame (E : Env) (U : Indeterminate) (s : Scheme)
    (x : List block_africa) (y : List float) (k : Int) (hk : 0 ≤ k)
    (hy : k.toNat ≤ y.length) (p : Nat) (hp : k.toNat ≤ p) :
    (dequantize_row E U s x y k).1[p]? = y[p]? := by
  rw [dequantize_row_eq E U s x y k hk hy]
  have hl := decode_floats_length _ (codebook_size s) _ (BLOCK_SIZE_pos E s)
    (decode_length E s) U x y k hy
  simp only
  rw [List.getElem?_append_right (by omega), hl, List.getElem?_drop]
  congr 1
  omega

theorem decode_step_congr (QK cb : Nat) (d d' : DequantizeFn) (i : Nat) (sc : Bool)
    (xb : block_africa) (yb : List float)
    (h : (decode_call QK cb i sc xb yb).run d' = (decode_call QK cb i sc xb yb).run d) :
    decode_step QK cb d' xb yb = decode_step QK cb d xb yb := by
  have h' : d' xb.qs (size_t QK) yb (decode_meta QK cb xb) (uint32_t QK)
      = d xb.qs (size_t QK) yb (decode_meta QK cb xb) (uint32_t QK) := h
  simp only [decode_step, h']

theorem decode_tail_congr (QK cb : Nat) (d d' : DequantizeFn) (U : Indeterminate) (i : Nat)
    (xb : block_africa) (r : Nat)
    (h : (decode_call QK cb i true xb (local_array QK U.temp)).run d'
      = (decode_call QK cb i true xb (local_array QK U.temp)).run d) :
    decode_tail QK cb d' U xb r = decode_tail QK cb d U xb r := by
  have h' : d' xb.qs (size_t QK) (local_array QK U.temp) (decode_meta QK cb xb) (uint32_t QK)
      = d xb.qs (size_t QK) (local_array QK U.temp) (decode_meta QK cb xb) (uint32_t QK) := h
  simp only [decode_tail, h']

theorem decode_log_full (QK cb : Nat) (U : Indeterminate) (x : List block_africa)
    (y : List float) (k : Int) (i : Nat) (hi : i < k.toNat / QK) :
    (decode_log QK cb U x y k)[i]?
      = some (decode_call QK cb i false (x.getD i default) (x_block_at QK y i)) := by
  unfold decode_log
  rw [List.getElem?_append_left (by simpa using hi), List.getElem?_map,
    List.getElem?_range hi]
  rfl

theorem decode_log_tail (QK cb : Nat) (U : Indeterminate) (x : List block_africa)
    (y : List float) (k : Int) (hr : 0 < k.toNat % QK) :
    (decode_log QK cb U x y k)[k.toNat / QK]?
      = some (decode_call QK cb (k.toNat / QK) true (x.getD (k.toNat / QK) default)
          (local_array QK U.temp)) := by
  unfold decode_log
  rw [List.getElem?_append_right (by simp), if_pos hr]
  simp

theorem decode_log_length (QK cb : Nat) (U : Indeterminate) (x : List block_africa)
    (y : List float) (k : Int) :
    (decode_log QK cb U x y k).length
      = k.toNat / QK + (if 0 < k.toNat % QK then 1 else 0) := by
  unfold decode_log
  split <;> simp

theorem block_index_bounds (QK p : Nat) (hQ : 0 < QK) :
    p / QK * QK ≤ p ∧ p < p / QK * QK + QK := by
  have h1 := Nat.div_add_mod' p QK
  have h2 := Nat.mod_lt p hQ
  omega

theorem block_index_unique (QK p j : Nat) (h1 : j * QK ≤ p) (h2 : p < (j + 1) * QK) :
    p / QK = j := by
  apply Nat.div_eq_of_lt_le
  · exact h1
  · exact h2

/-- Element `p < k` of the output of a row dequantizer lies in the range of block
`p / BLOCK_SIZE`, at offset `p - p / BLOCK_SIZE * BLOCK_SIZE`. -/
theorem dequantize_row_getElem? (E : Env) (U : Indeterminate) (s : Scheme)
    (x : List block_africa) (y : List float) (k : Int) (hk : 0 ≤ k)
    (hy : k.toNat ≤ y.length) (p : Nat) (hp : p < k.toNat) :
    (dequantize_row E U s x y k).1[p]?
      = (decode_block (BLOCK_SIZE E s) (codebook_size s) (decode E s) U x y k
          (p / BLOCK_SIZE E s))[p - p / BLOCK_SIZE E s * BLOCK_SIZE E s]? := by
  have hQ := BLOCK_SIZE_pos E s
  have hdm : k.toNat / BLOCK_SIZE E s * BLOCK_SIZE E s + k.toNat % BLOCK_SIZE E s = k.toNat :=
    Nat.div_add_mod' _ _
  obtain ⟨hb1, hb2⟩ := block_index_bounds (BLOCK_SIZE E s) p hQ
  have hle : p / BLOCK_SIZE E s ≤ k.toNat / BLOCK_SIZE E s :=
    Nat.div_le_div_right (Nat.le_of_lt hp)
  rw [dequantize_row_eq E U s x y k hk hy]
  unfold decode_block
  by_cases hi : p / BLOCK_SIZE E s < k.toNat / BLOCK_SIZE E s
  · rw [if_pos hi]
    exact getElem?_of_slice _ _ _ _ _
      (decode_floats_full_slice _ _ _ (decode_length E s) U x y k hy _ hi _) hb1 hb2
  · have hi' : p / BLOCK_SIZE E s = k.toNat / BLOCK_SIZE E s := by omega
    rw [if_neg hi, hi']
    rw [hi'] at hb1
    have hr : 0 < k.toNat % BLOCK_SIZE E s := by omega
    exact getElem?_of_slice _ _ _ _ _
      (decode_floats_tail_slice _ _ _ hQ (decode_length E s) U x y k hy hr _) hb1 (by omega)

/-- C3: for each scheme and every row length `k ≥ 0` with an output vector of at least `k`
floats, if the call logged for block `j` reports failure then the elements of block `j`'s
range inside the row, `y[j*BLOCK_SIZE .. min((j+1)*BLOCK_SIZE, k))`, are all `0.0` after
the row dequantizer returns (all `BLOCK_SIZE` elements of a full block, exactly the
`remainder` elements `y[nb*BLOCK_SIZE .. k)` of the remainder block, the elements from
index `k` on keeping their prior value); and every element outside that range is what it
is under any other C API that answers the calls of the other blocks the same way, such as
one that succeeds on block `j`. -/
theorem C3_decode_failure (E : Env) (U : Indeterminate) (s : Scheme)
    (x : List block_africa) (y : List float) (k : Int) (j : Nat) (c : DecCall)
    (hk : 0 ≤ k) (hy : k.toNat ≤ y.length)
    (hc : (dequantize_row E U s x y k).2[j]? = some c)
    (hfail : (c.run (decode E s)).success = false) :
    c.record = j
    ∧ (∀ p, j * BLOCK_SIZE E s ≤ p → p < (j + 1) * BLOCK_SIZE E s → p < k.toNat →
        (dequantize_row E U s x y k).1[p]? = some 0)
    ∧ ((j : Int) < nb (BLOCK_SIZE E s) k → (j + 1) * BLOCK_SIZE E s ≤ k.toNat)
    ∧ (∀ p, k.toNat ≤ p → (dequantize_row E U s x y k).1[p]? = y[p]?)
    ∧ ∀ E' : Env, BLOCK_SIZE E' s = BLOCK_SIZE E s →
        (∀ c' ∈ (dequantize_row E U s x y k).2, c'.record ≠ j →
          c'.run (decode E' s) = c'.run (decode E s)) →
        ∀ p, (p < j * BLOCK_SIZE E s ∨ (j + 1) * BLOCK_SIZE E s ≤ p ∨ k.toNat ≤ p) →
          (dequantize_row E' U s x y k).1[p]? = (dequantize_row E U s x y k).1[p]? := by
  have hQ := BLOCK_SIZE_pos E s
  have hlog : (dequantize_row E U s x y k).2
      = decode_log (BLOCK_SIZE E s) (codebook_size s) U x y k := by
    rw [dequantize_row_eq E U s x y k hk hy]
  rw [hlog] at hc
  have hjlen : j < k.toNat / BLOCK_SIZE E s
      + (if 0 < k.toNat % BLOCK_SIZE E s then 1 else 0) := by
    rw [← decode_log_length (BLOCK_SIZE E s) (codebook_size s) U x y k]
    by_contra hcon
    rw [List.getElem?_eq_none (Nat.le_of_not_lt hcon)] at hc
    exact Option.noConfusion hc
  -- the floats left in block `j`'s range are zeros
  have hzero : ∃ n, decode_block (BLOCK_SIZE E s) (codebook_size s) (decode E s) U x y k j
      = List.replicate n 0 ∧ c.record = j := by
    unfold decode_block
    by_cases hj : j < k.toNat / BLOCK_SIZE E s
    · rw [decode_log_full _ _ U x y k j hj] at hc
      have hc' := Option.some.inj hc
      subst hc'
      have hf : (decode E s (x.getD j default).qs (size_t (BLOCK_SIZE E s))
          (x_block_at (BLOCK_SIZE E s) y j)
          (decode_meta (BLOCK_SIZE E s) (codebook_size s) (x.getD j default))
          (uint32_t (BLOCK_SIZE E s))).success = false := hfail
      refine ⟨BLOCK_SIZE E s, ?_, rfl⟩
      simp only [if_pos hj, decode_step, hf, Bool.false_eq_true, if_false]
    · have hr : 0 < k.toNat % BLOCK_SIZE E s := by
        by_contra hcon
        rw [if_neg hcon] at hjlen
        omega
      rw [if_pos hr] at hjlen
      have hj' : j = k.toNat / BLOCK_SIZE E s := by omega
      subst hj'
      rw [decode_log_tail _ _ U x y k hr] at hc
      have hc' := Option.some.inj hc
      subst hc'
      have hf : (decode E s (x.getD (k.toNat / BLOCK_SIZE E s) default).qs
          (size_t (BLOCK_SIZE E s)) (local_array (BLOCK_SIZE E s) U.temp)
          (decode_meta (BLOCK_SIZE E s) (codebook_size s)
            (x.getD (k.toNat / BLOCK_SIZE E s) default))
          (uint32_t (BLOCK_SIZE E s))).success = false := hfail
      refine ⟨k.toNat % BLOCK_SIZE E s, ?_, rfl⟩
      simp only [if_neg hj, decode_tail, hf, Bool.false_eq_true, if_false]
  obtain ⟨n, hzero, hrec⟩ := hzero
  refine ⟨hrec, ?_, ?_, dequantize_row_frame E U s x y k hk hy, ?_⟩
  · intro p h1 h2 hp
    have hpj := block_index_unique _ p j h1 h2
    have hget := dequantize_row_getElem? E U s x y k hk hy p hp
    rw [hpj, hzero] at hget
    have hsome : ((dequantize_row E U s x y k).1[p]?).isSome := by
      rw [List.getElem?_eq_getElem (by
        rw [dequantize_row_length E U s x y k hk hy]
        omega)]
      rfl
    rw [hget] at hsome ⊢
    by_cases hlt : p - j * BLOCK_SIZE E s < n
    · rw [List.getElem?_eq_getElem (by simpa using hlt)]
      simp
    · rw [List.getElem?_eq_none (by simpa using hlt)] at hsome
      exact absurd hsome (by simp)
  · intro hj
    exact full_block_in_row _ k j hk (lt_nb_toNat _ k j hj)
  · intro E' hBS hagree p hp
    by_cases hpk : k.toNat ≤ p
    · rw [dequantize_row_frame E' U s x y k hk hy p hpk,
        dequantize_row_frame E U s x y k hk hy p hpk]
    · have hpk' : p < k.toNat := Nat.lt_of_not_le hpk
      obtain ⟨hb1, hb2⟩ := block_index_bounds (BLOCK_SIZE E s) p hQ
      have hne : p / BLOCK_SIZE E s ≠ j := by
        intro heq
        rw [heq] at hb1 hb2
        rw [Nat.add_mul, Nat.one_mul] at hp
        omega
      rw [dequantize_row_getElem? E' U s x y k hk hy p hpk',
        dequantize_row_getElem? E U s x y k hk hy p hpk', hBS]
      congr 1
      have hle : p / BLOCK_SIZE E s ≤ k.toNat / BLOCK_SIZE E s :=
        Nat.div_le_div_right (Nat.le_of_lt hpk')
      have hdm : k.toNat / BLOCK_SIZE E s * BLOCK_SIZE E s + k.toNat % BLOCK_SIZE E s
          = k.toNat := Nat.div_add_mod' _ _
      unfold decode_block
      by_cases hi : p / BLOCK_SIZE E s < k.toNat / BLOCK_SIZE E s
      · rw [if_pos hi, if_pos hi]
        apply decode_step_congr _ _ _ _ (p / BLOCK_SIZE E s) false
        apply hagree _ _ hne
        rw [hlog]
        exact List.getElem?_mem (decode_log_full _ _ U x y k _ hi)
      · have hi' : p / BLOCK_SIZE E s = k.toNat / BLOCK_SIZE E s := by omega
        have hr : 0 < k.toNat % BLOCK_SIZE E s := by
          rw [hi'] at hb1
          omega
        rw [if_neg hi, if_neg hi]
        apply decode_tail_congr _ _ _ _ U (p / BLOCK_SIZE E s)
        apply hagree _ _ hne
        rw [hlog, hi']
        exact List.getElem?_mem (decode_log_tail _ _ U x y k hr)

/-- C3 on a row of ten floats in blocks of four whose second record makes the test double
fail: `y[5]`, in the second block's range, is `0.0`. -/
theorem C3_decode_failure_witness :
    ((0 : Int) ≤ 10 ∧ (10 : Int).toNat ≤ (List.replicate 12 (77 : float)).length
      ∧ (dequantize_row test_env test_junk .africa_1_58
          [⟨2, 1, [1, 2, 0, 1]⟩, ⟨2, 1, [9, 2, 0, 1]⟩, ⟨3, 1, [1, 2, 0, 1]⟩]
          (List.replicate 12 77) 10).2[1]?
          = some ⟨1, false, [9, 2, 0, 1], 4, [77, 77, 77, 77], ⟨2, 1, 4, 4⟩, 4⟩
      ∧ (DecCall.run (decode test_env .africa_1_58)
          ⟨1, false, [9, 2, 0, 1], 4, [77, 77, 77, 77], ⟨2, 1, 4, 4⟩, 4⟩).success = false)
    ∧ (dequantize_row test_env test_junk .africa_1_58
        [⟨2, 1, [1, 2, 0, 1]⟩, ⟨2, 1, [9, 2, 0, 1]⟩, ⟨3, 1, [1, 2, 0, 1]⟩]
        (List.replicate 12 77) 10).1[5]? = some 0 :=
  ⟨⟨by decide, by decide, by decide, by decide⟩,
    (C3_decode_failure test_env test_junk .africa_1_58
      [⟨2, 1, [1, 2, 0, 1]⟩, ⟨2, 1, [9, 2, 0, 1]⟩, ⟨3, 1, [1, 2, 0, 1]⟩]
      (List.replicate 12 77) 10 1
      ⟨1, false, [9, 2, 0, 1], 4, [77, 77, 77, 77], ⟨2, 1, 4, 4⟩, 4⟩
      (by decide) (by decide) (by decide) (by decide)).2.1 5 (by decide) (by decide)
      (by decide)⟩

/-- C6: for each scheme, every row length `k ≥ 0` with an output vector of at least `k`
floats, and every full block `i < nb` whose record `x[i]` exists, call `i` of the row
dequantizer is the scheme's decode on `x[i].codes` with metadata
`{scale = x[i].scale, zero_point = x[i].zero_point, block_size = BLOCK_SIZE,
codebook_size = 3 (1.28) or 4 (1.58)}` and `count = BLOCK_SIZE`, writing into the block's
range of `y`; and when that call succeeds, `y[i*BLOCK_SIZE .. i*BLOCK_SIZE+BLOCK_SIZE)` is
the `BLOCK_SIZE` values the call produced, in order. -/
theorem C6_decode_full (E : Env) (U : Indeterminate) (s : Scheme)
    (x : List block_africa) (y : List float) (k : Int) (i : Nat) (xb : block_africa)
    (hk : 0 ≤ k) (hy : k.toNat ≤ y.length) (hi : (i : Int) < nb (BLOCK_SIZE E s) k)
    (hx : x[i]? = some xb) :
    (dequantize_row E U s x y k).2[i]? = some
        { record := i, scratch := false, quantized := xb.qs, count := BLOCK_SIZE E s,
          output := (y.drop (i * BLOCK_SIZE E s)).take (BLOCK_SIZE E s),
          metadata := { scale := xb.scale, zero_point := xb.zero_point,
                        block_size := BLOCK_SIZE E s, codebook_size := codebook_size s },
          block_size := BLOCK_SIZE E s }
    ∧ codebook_size s = (match s with | .africa_1_28 => 3 | .africa_1_58 => 4)
    ∧ ∀ r : DecResult,
        r = decode E s xb.qs (BLOCK_SIZE E s)
              ((y.drop (i * BLOCK_SIZE E s)).take (BLOCK_SIZE E s))
              { scale := xb.scale, zero_point := xb.zero_point,
                block_size := BLOCK_SIZE E s, codebook_size := codebook_size s }
              (BLOCK_SIZE E s) →
        r.success = true →
        ((dequantize_row E U s x y k).1.drop (i * BLOCK_SIZE E s)).take (BLOCK_SIZE E s)
            = r.output
          ∧ r.output.length = BLOCK_SIZE E s := by
  have hi' := lt_nb_toNat _ k i hi
  have hi2 : i < k.toNat / BLOCK_SIZE E s := by
    rw [← nb_toNat _ k hk]
    exact hi'
  have hs := size_t_eq (BLOCK_SIZE_lt E s)
  have hu := uint32_t_eq (BLOCK_SIZE_lt E s)
  have hxb := getD_of_getElem? x i xb default hx
  have hblk := x_block_at_length (BLOCK_SIZE E s) y i
    (le_trans (full_block_in_row _ k i hk hi') hy)
  rw [dequantize_row_eq E U s x y k hk hy]
  refine ⟨?_, ?_, ?_⟩
  · rw [decode_log_full _ _ U x y k i hi2, hxb]
    simp [decode_call, decode_meta, x_block_at, hs, hu]
  · cases s <;> rfl
  · intro r hr hsucc
    simp only
    rw [decode_floats_full_slice _ _ _ (decode_length E s) U x y k hy i hi2, hxb]
    simp only [decode_step, decode_meta, x_block_at, hs, hu]
    rw [← hr, if_pos hsucc]
    refine ⟨rfl, ?_⟩
    rw [hr, decode_length]
    exact hblk

/-- C6 on the first block of a row of ten floats in blocks of four. -/
theorem C6_decode_full_witness :
    ((0 : Int) ≤ 10 ∧ (10 : Int).toNat ≤ (List.replicate 12 (77 : float)).length
      ∧ ((0 : Nat) : Int) < nb (BLOCK_SIZE test_env .africa_1_58) 10
      ∧ [(⟨2, 1, [1, 2, 0, 1]⟩ : block_africa), ⟨2, 1, [9, 2, 0, 1]⟩,
          ⟨3, 1, [1, 2, 0, 1]⟩][0]? = some ⟨2, 1, [1, 2, 0, 1]⟩)
    ∧ (dequantize_row test_env test_junk .africa_1_58
        [⟨2, 1, [1, 2, 0, 1]⟩, ⟨2, 1, [9, 2, 0, 1]⟩, ⟨3, 1, [1, 2, 0, 1]⟩]
        (List.replicate 12 77) 10).2[0]?
        = some ⟨0, false, [1, 2, 0, 1], 4, [77, 77, 77, 77], ⟨2, 1, 4, 4⟩, 4⟩ :=
  ⟨⟨by decide, by decide, by decide, by decide⟩,
    (C6_decode_full test_env test_junk .africa_1_58
      [⟨2, 1, [1, 2, 0, 1]⟩, ⟨2, 1, [9, 2, 0, 1]⟩, ⟨3, 1, [1, 2, 0, 1]⟩]
      (List.replicate 12 77) 10 0 ⟨2, 1, [1, 2, 0, 1]⟩
      (by decide) (by decide) (by decide) (by decide)).1⟩

/-- C7: for each scheme and every row length `k ≥ 0` with `remainder = k % BLOCK_SIZE > 0`,
an output vector of at least `k` floats and an existing record `x[nb]`, the remainder call
decodes `x[nb]` into the scratch array, and when it succeeds `y[nb*BLOCK_SIZE .. k)` is
the first `remainder` of the `BLOCK_SIZE` values the call produced, the others being
discarded; the output vector keeps its length, so a vector of `k` floats holds exactly
`k` decoded floats. -/
theorem C7_decode_remainder (E : Env) (U : Indeterminate) (s : Scheme)
    (x : List block_africa) (y : List float) (k : Int) (xb : block_africa)
    (hk : 0 ≤ k) (hy : k.toNat ≤ y.length) (hr : remainder (BLOCK_SIZE E s) k > 0)
    (hx : x[(nb (BLOCK_SIZE E s) k).toNat]? = some xb) :
    (dequantize_row E U s x y k).2[(nb (BLOCK_SIZE E s) k).toNat]? = some
        { record := (nb (BLOCK_SIZE E s) k).toNat, scratch := true, quantized := xb.qs,
          count := BLOCK_SIZE E s, output := local_array (BLOCK_SIZE E s) U.temp,
          metadata := { scale := xb.scale, zero_point := xb.zero_point,
                        block_size := BLOCK_SIZE E s, codebook_size := codebook_size s },
          block_size := BLOCK_SIZE E s }
    ∧ (dequantize_row E U s x y k).1.length = y.length
    ∧ (nb (BLOCK_SIZE E s) k).toNat * BLOCK_SIZE E s + (remainder (BLOCK_SIZE E s) k).toNat
        = k.toNat
    ∧ (remainder (BLOCK_SIZE E s) k).toNat < BLOCK_SIZE E s
    ∧ ∀ r : DecResult,
        r = decode E s xb.qs (BLOCK_SIZE E s) (local_array (BLOCK_SIZE E s) U.temp)
              { scale := xb.scale, zero_point := xb.zero_point,
                block_size := BLOCK_SIZE E s, codebook_size := codebook_size s }
              (BLOCK_SIZE E s) →
        r.success = true →
        ((dequantize_row E U s x y k).1.drop
              ((nb (BLOCK_SIZE E s) k).toNat * BLOCK_SIZE E s)).take
            (remainder (BLOCK_SIZE E s) k).toNat
            = r.output.take (remainder (BLOCK_SIZE E s) k).toNat
          ∧ r.output.length = BLOCK_SIZE E s := by
  have hQ := BLOCK_SIZE_pos E s
  have hs := size_t_eq (BLOCK_SIZE_lt E s)
  have hu := uint32_t_eq (BLOCK_SIZE_lt E s)
  have hn := nb_toNat (BLOCK_SIZE E s) k hk
  have hrem := remainder_toNat (BLOCK_SIZE E s) k hk
  have hr' : 0 < k.toNat % BLOCK_SIZE E s := (remainder_pos_iff _ k hk).mp hr
  rw [hn] at hx
  have hxb := getD_of_getElem? x _ xb default hx
  refine ⟨?_, dequantize_row_length E U s x y k hk hy, ?_, ?_, ?_⟩
  · rw [dequantize_row_eq E U s x y k hk hy, hn]
    simp only
    rw [decode_log_tail _ _ U x y k hr', hxb]
    simp [decode_call, decode_meta, hs, hu]
  · rw [hn, hrem]
    exact Nat.div_add_mod' _ _
  · rw [hrem]
    exact Nat.mod_lt _ hQ
  · intro r hrr hsucc
    rw [dequantize_row_eq E U s x y k hk hy, hn, hrem]
    simp only
    rw [decode_floats_tail_slice _ _ _ hQ (decode_length E s) U x y k hy hr', hxb]
    simp only [decode_tail, decode_meta, hs, hu]
    rw [← hrr, if_pos hsucc]
    refine ⟨rfl, ?_⟩
    rw [hrr, decode_length, local_array_length]

/-- C7 at the spec's scenario: `k = 40` with block size 32; the output has 40 values and
`y[32..40)` is positions `[0, 8)` of the decode of `x[1]`. -/
theorem C7_decode_remainder_witness :
    ((0 : Int) ≤ 40 ∧ (40 : Int).toNat ≤ (List.replicate 40 (77 : float)).length
      ∧ remainder (BLOCK_SIZE test_env .africa_1_28) 40 > 0
      ∧ [(⟨2, 1, [1, 2, 0, 1, 1, 2, 0, 1]⟩ : block_africa),
          ⟨3, 5, [2, 1, 0, 2, 1, 0, 2, 1]⟩][(nb (BLOCK_SIZE test_env .africa_1_28) 40).toNat]?
          = some ⟨3, 5, [2, 1, 0, 2, 1, 0, 2, 1]⟩)
    ∧ (dequantize_row test_env test_junk .africa_1_28
        [⟨2, 1, [1, 2, 0, 1, 1, 2, 0, 1]⟩, ⟨3, 5, [2, 1, 0, 2, 1, 0, 2, 1]⟩]
        (List.replicate 40 77) 40).1.length = (List.replicate 40 (77 : float)).length
    ∧ (List.replicate 40 (77 : float)).length = 40
    ∧ (dequantize_row test_env test_junk .africa_1_28
        [⟨2, 1, [1, 2, 0, 1, 1, 2, 0, 1]⟩, ⟨3, 5, [2, 1, 0, 2, 1, 0, 2, 1]⟩]
        (List.replicate 40 77) 40).1.drop 32 = [11, 8, 5, 11, 8, 5, 11, 8] :=
  ⟨⟨by decide, by decide, by decide, by decide⟩,
    (C7_decode_remainder test_env test_junk .africa_1_28
      [⟨2, 1, [1, 2, 0, 1, 1, 2, 0, 1]⟩, ⟨3, 5, [2, 1, 0, 2, 1, 0, 2, 1]⟩]
      (List.replicate 40 77) 40 ⟨3, 5, [2, 1, 0, 2, 1, 0, 2, 1]⟩
      (by decide) (by decide) (by decide) (by decide)).2.1,
    by decide, by decide⟩

/-- C8, as stated, fails: for the row length `k = -1`, a signed 64-bit value, and block
size 32 the code computes `nb = 0` and `remainder = -1`, which is not in
`[0, BLOCK_SIZE)`. -/
theorem C8_partition_counterexample :
    (-(2 : Int) ^ 63 ≤ -1 ∧ (-1 : Int) < 2 ^ 63 ∧ 0 < 32)
    ∧ nb 32 (-1) = 0 ∧ remainder 32 (-1) = -1
    ∧ ¬ (remainder 32 (-1) = -1 - nb 32 (-1) * 32
          ∧ 0 ≤ remainder 32 (-1) ∧ remainder 32 (-1) < 32) := by
  decide

/-- C8, amended: for every row length `k` and every block size `QK > 0`, the values
`nb = k / QK` and `remainder = k % QK` of the code satisfy `remainder = k - nb * QK` and
`-QK < remainder < QK`; `0 ≤ remainder < QK` when `k ≥ 0`, and `remainder ≤ 0` when
`k ≤ 0`. -/
theorem C8_partition_range (QK : Nat) (k : Int) (hQ : 0 < QK) :
    remainder QK k = k - nb QK k * QK
    ∧ -(QK : Int) < remainder QK k ∧ remainder QK k < QK
    ∧ (0 ≤ k → 0 ≤ remainder QK k)
    ∧ (k ≤ 0 → remainder QK k ≤ 0) := by
  have hQ' : (0 : Int) < QK := by exact_mod_cast hQ
  have hdm := Int.tdiv_add_tmod k QK
  have hlt := Int.tmod_lt_of_pos k hQ'
  have hneg : Int.tmod (-k) QK < QK := Int.tmod_lt_of_pos (-k) hQ'
  rw [tmod_neg_left] at hneg
  unfold remainder nb
  refine ⟨?_, ?_, hlt, ?_, ?_⟩
  · rw [mul_comm] at hdm
    linarith
  · linarith
  · intro hk
    exact Int.tmod_nonneg _ hk
  · intro hk
    have := Int.tmod_nonneg (QK : Int) (neg_nonneg.mpr hk)
    rw [tmod_neg_left] at this
    linarith

/-- C8, amended, at `k = -1` with block size 32, and the partition of `k = 40`. -/
theorem C8_partition_range_witness :
    0 < 32
    ∧ remainder 32 (-1) = -1 - nb 32 (-1) * (32 : Nat)
    ∧ -((32 : Nat) : Int) < remainder 32 (-1) ∧ remainder 32 (-1) < (32 : Nat)
    ∧ remainder 32 (-1) ≤ 0
    ∧ nb 32 40 = 1 ∧ remainder 32 40 = 8 :=
  ⟨by decide, (C8_partition_range 32 (-1) (by decide)).1,
    (C8_partition_range 32 (-1) (by decide)).2.1,
    (C8_partition_range 32 (-1) (by decide)).2.2.1,
    (C8_partition_range 32 (-1) (by decide)).2.2.2.2 (by decide), by decide, by decide⟩

/-- C9: for each scheme and every row length `k ≥ 0`, the row quantizer leaves the
caller's record array at its length and every record at an index `≥ block_count` as it
was, and the row dequantizer, given an output vector of at least `k` floats, leaves the
vector at its length and every float at an index `≥ k` as it was; this for any behaviour
of the C API, failing blocks included, and any `k`, multiple of `BLOCK_SIZE` or not. -/
theorem C9_write_frame (E : Env) (U : Indeterminate) (s : Scheme)
    (x : List float) (y : List block_africa) (xq : List block_africa) (yf : List float)
    (k : Int) (hk : 0 ≤ k) (hyf : k.toNat ≤ yf.length) :
    (quantize_row E U s x y k).1.length = y.length
    ∧ (∀ j, (nb (BLOCK_SIZE E s) k).toNat
            + (if remainder (BLOCK_SIZE E s) k > 0 then 1 else 0) ≤ j →
        (quantize_row E U s x y k).1[j]? = y[j]?)
    ∧ (dequantize_row E U s xq yf k).1.length = yf.length
    ∧ (∀ p, k.toNat ≤ p → (dequantize_row E U s xq yf k).1[p]? = yf[p]?) := by
  refine ⟨?_, ?_, dequantize_row_length E U s xq yf k hk hyf,
    dequantize_row_frame E U s xq yf k hk hyf⟩
  · rw [quantize_row_eq]
    exact List.length_mapIdx
  · intro j hj
    have hj' : ¬ j < block_count (BLOCK_SIZE E s) k := by
      unfold block_count
      omega
    rw [quantize_row_getElem?]
    simp only [if_neg hj']
    cases y[j]? <;> rfl

/-- C9 on a row of ten floats in blocks of four with a failing block: record 3 and the
floats 10 and 11 of the larger caller buffers are untouched. -/
theorem C9_write_frame_witness :
    ((0 : Int) ≤ 10 ∧ (10 : Int).toNat ≤ (List.replicate 12 (77 : float)).length)
    ∧ (quantize_row test_env test_junk .africa_1_58 [1, 2, 3, 4, 99, 5, 6, 7, 1, 1]
        (test_records 4 2) 10).1[3]? = (test_records 4 2)[3]?
    ∧ (dequantize_row test_env test_junk .africa_1_58
        [⟨2, 1, [1, 2, 0, 1]⟩, ⟨2, 1, [9, 2, 0, 1]⟩, ⟨3, 1, [1, 2, 0, 1]⟩]
        (List.replicate 12 77) 10).1.drop 10 = [77, 77] :=
  ⟨⟨by decide, by decide⟩,
    (C9_write_frame test_env test_junk .africa_1_58 [1, 2, 3, 4, 99, 5, 6, 7, 1, 1]
      (test_records 4 2) [⟨2, 1, [1, 2, 0, 1]⟩, ⟨2, 1, [9, 2, 0, 1]⟩, ⟨3, 1, [1, 2, 0, 1]⟩]
      (List.replicate 12 77) 10 (by decide) (by decide)).2.1 3 (by decide),
    by decide⟩

/-- C10: for each scheme and every row length `k ≥ 0` with `k % BLOCK_SIZE = 0` and caller
buffers that hold the row, no call of the row quantizer or of the row dequantizer is made
on scratch data, there are `k / BLOCK_SIZE` calls, and the output is generic block
processing: the per-block encode (decode) step with its zero fallback applied to each of
the `k / BLOCK_SIZE` consecutive full blocks, the results in block order, followed by the
untouched rest of the caller's buffer. -/
theorem C10_exact_multiple (E : Env) (U : Indeterminate) (s : Scheme)
    (x : List float) (y : List block_africa) (xq : List block_africa) (yf : List float)
    (k : Int) (hk : 0 ≤ k) (hm : remainder (BLOCK_SIZE E s) k = 0)
    (hy : (nb (BLOCK_SIZE E s) k).toNat ≤ y.length) (hyf : k.toNat ≤ yf.length) :
    (∀ c ∈ (quantize_row E U s x y k).2, c.scratch = false)
    ∧ (∀ c ∈ (dequantize_row E U s xq yf k).2, c.scratch = false)
    ∧ (quantize_row E U s x y k).2.length = (nb (BLOCK_SIZE E s) k).toNat
    ∧ (dequantize_row E U s xq yf k).2.length = (nb (BLOCK_SIZE E s) k).toNat
    ∧ (nb (BLOCK_SIZE E s) k).toNat * BLOCK_SIZE E s = k.toNat
    ∧ (quantize_row E U s x y k).1
        = generic_encode (BLOCK_SIZE E s) (codebook_size s) (encode E s) U x y
            (nb (BLOCK_SIZE E s) k).toNat
          ++ y.drop (nb (BLOCK_SIZE E s) k).toNat
    ∧ (dequantize_row E U s xq yf k).1
        = generic_decode (BLOCK_SIZE E s) (codebook_size s) (decode E s) xq yf
            (nb (BLOCK_SIZE E s) k).toNat
          ++ yf.drop k.toNat := by
  have hn := nb_toNat (BLOCK_SIZE E s) k hk
  have hr0 : k.toNat % BLOCK_SIZE E s = 0 := by
    have := remainder_toNat (BLOCK_SIZE E s) k hk
    rw [hm] at this
    simpa using this.symm
  have hbc : block_count (BLOCK_SIZE E s) k = (nb (BLOCK_SIZE E s) k).toNat := by
    simp [block_count, hm]
  have hdm : k.toNat / BLOCK_SIZE E s * BLOCK_SIZE E s + k.toNat % BLOCK_SIZE E s = k.toNat :=
    Nat.div_add_mod' _ _
  have hdlog : (dequantize_row E U s xq yf k).2
      = (List.range (k.toNat / BLOCK_SIZE E s)).map (fun i =>
          decode_call (BLOCK_SIZE E s) (codebook_size s) i false (xq.getD i default)
            (x_block_at (BLOCK_SIZE E s) yf i)) := by
    rw [dequantize_row_eq E U s xq yf k hk hyf]
    simp [decode_log, hr0]
  refine ⟨?_, ?_, ?_, ?_, ?_, ?_, ?_⟩
  · intro c hc
    rw [quantize_row_log, hbc] at hc
    obtain ⟨i, hi, rfl⟩ := List.mem_map.mp hc
    have hi' := List.mem_range.mp hi
    show decide ((nb (BLOCK_SIZE E s) k).toNat ≤ i) = false
    exact decide_eq_false (Nat.not_le.mpr hi')
  · intro c hc
    rw [hdlog] at hc
    obtain ⟨i, _, rfl⟩ := List.mem_map.mp hc
    rfl
  · rw [quantize_row_log_length, hbc]
  · rw [hdlog, hn]
    simp
  · rw [hn]
    omega
  · apply List.ext_getElem?
    intro j
    rw [quantize_row_getElem?, hbc]
    by_cases hj : j < (nb (BLOCK_SIZE E s) k).toNat
    · have hjy : j < y.length := by omega
      rw [List.getElem?_append_left (by simpa [generic_encode] using hj)]
      simp only [generic_encode, List.getElem?_map, List.getElem?_range hj,
        Option.map_some', List.getElem?_eq_getElem hjy, if_pos hj,
        weights_at_full _ U x k j hj]
      rw [getD_of_getElem? y j y[j] default (List.getElem?_eq_getElem hjy)]
    · rw [List.getElem?_append_right (by simpa [generic_encode] using hj)]
      simp only [if_neg hj, generic_encode, List.length_map, List.length_range,
        List.getElem?_drop]
      rw [show (nb (BLOCK_SIZE E s) k).toNat + (j - (nb (BLOCK_SIZE E s) k).toNat) = j by
        omega]
      cases y[j]? <;> rfl
  · rw [dequantize_row_eq E U s xq yf k hk hyf, hn]
    simp [decode_floats, hr0]

/-- C10 on a row of eight floats in blocks of four: two calls, none on scratch data. -/
theorem C10_exact_multiple_witness :
    ((0 : Int) ≤ 8 ∧ remainder (BLOCK_SIZE test_env .africa_1_58) 8 = 0
      ∧ (nb (BLOCK_SIZE test_env .africa_1_58) 8).toNat ≤ (test_records 4 2).length
      ∧ (8 : Int).toNat ≤ (List.replicate 12 (77 : float)).length)
    ∧ (quantize_row test_env test_junk .africa_1_58 [1, 2, 3, 4, 99, 5, 6, 7, 1, 1]
        (test_records 4 2) 8).2.length = (nb (BLOCK_SIZE test_env .africa_1_58) 8).toNat
    ∧ (nb (BLOCK_SIZE test_env .africa_1_58) 8).toNat = 2
    ∧ (quantize_row test_env test_junk .africa_1_58 [1, 2, 3, 4, 99, 5, 6, 7, 1, 1]
        (test_records 4 2) 8).2.map EncCall.scratch = [false, false] :=
  ⟨⟨by decide, by decide, by decide, by decide⟩,
    (C10_exact_multiple test_env test_junk .africa_1_58 [1, 2, 3, 4, 99, 5, 6, 7, 1, 1]
      (test_records 4 2) [⟨2, 1, [1, 2, 0, 1]⟩, ⟨2, 1, [9, 2, 0, 1]⟩]
      (List.replicate 12 77) 8 (by decide) (by decide) (by decide) (by decide)).2.2.1,
    by decide, by decide⟩

/-! ## Non-positive lengths -/

theorem nb_nonpos (QK : Nat) (k : Int) (hk : k ≤ 0) : nb QK k ≤ 0 := by
  obtain ⟨n, rfl⟩ := Int.exists_eq_neg_ofNat hk
  unfold nb
  rw [Int.neg_tdiv]
  have := Int.tdiv_nonneg (Int.ofNat_nonneg n) (Int.ofNat_nonneg QK)
  omega

theorem remainder_nonpos (QK : Nat) (k : Int) (hk : k ≤ 0) : remainder QK k ≤ 0 := by
  obtain ⟨n, rfl⟩ := Int.exists_eq_neg_ofNat hk
  unfold remainder
  rw [tmod_neg_left]
  have := Int.tmod_nonneg (QK : Int) (Int.ofNat_nonneg n)
  omega

theorem dequantize_row_common_of_nonpos (QK cb : Nat) (d : DequantizeFn)
    (U : Indeterminate) (x : List block_africa) (y : List float) (k : Int) (hk : k ≤ 0) :
    dequantize_row_common QK cb d U x y k = (y, []) := by
  have h1 : (Int.tdiv k QK).toNat = 0 := Int.toNat_eq_zero.mpr (nb_nonpos QK k hk)
  have h2 : ¬ Int.tmod k QK > 0 := not_lt.mpr (remainder_nonpos QK k hk)
  unfold dequantize_row_common
  simp only [h1, List.range_zero, List.foldl_nil, if_neg h2]

/-- C18: for each scheme and every row length `k ≤ 0`, zero or negative, `nb = k /
BLOCK_SIZE ≤ 0` and `k % BLOCK_SIZE ≤ 0`, so the block loop and the remainder branch are
both skipped: the row quantizer and the row dequantizer make no call to the C API and
return the output buffer as it was. -/
theorem C18_nonpositive_noop (E : Env) (U : Indeterminate) (s : Scheme)
    (x : List float) (y : List block_africa) (xq : List block_africa) (yf : List float)
    (k : Int) (hk : k ≤ 0) :
    nb (BLOCK_SIZE E s) k ≤ 0
    ∧ remainder (BLOCK_SIZE E s) k ≤ 0
    ∧ quantize_row E U s x y k = (y, [])
    ∧ dequantize_row E U s xq yf k = (yf, []) := by
  refine ⟨nb_nonpos _ k hk, remainder_nonpos _ k hk, ?_, ?_⟩
  · rw [quantize_row_eq, block_count_of_nonpos _ k hk]
    refine Prod.ext ?_ (by simp)
    apply List.ext_getElem?
    intro j
    simp [List.getElem?_mapIdx]
  · rw [dequantize_row_common_of_scheme]
    exact dequantize_row_common_of_nonpos _ _ _ U xq yf k hk

/-- C18 at `k = -5` with block size 4: nothing is called and nothing is written. -/
theorem C18_nonpositive_noop_witness :
    (-5 : Int) ≤ 0
    ∧ nb (BLOCK_SIZE test_env .africa_1_58) (-5) = -1
    ∧ remainder (BLOCK_SIZE test_env .africa_1_58) (-5) = -1
    ∧ quantize_row test_env test_junk .africa_1_58 [1, 2, 3, 4, 99, 5, 6, 7, 1, 1]
        (test_records 4 2) (-5) = (test_records 4 2, [])
    ∧ dequantize_row test_env test_junk .africa_1_58
        [⟨2, 1, [1, 2, 0, 1]⟩, ⟨2, 1, [9, 2, 0, 1]⟩] (List.replicate 12 77) (-5)
        = (List.replicate 12 77, []) :=
  ⟨by decide, by decide, by decide,
    (C18_nonpositive_noop test_env test_junk .africa_1_58 [1, 2, 3, 4, 99, 5, 6, 7, 1, 1]
      (test_records 4 2) [⟨2, 1, [1, 2, 0, 1]⟩, ⟨2, 1, [9, 2, 0, 1]⟩]
      (List.replicate 12 77) (-5) (by decide)).2.2.1,
    (C18_nonpositive_noop test_env test_junk .africa_1_58 [1, 2, 3, 4, 99, 5, 6, 7, 1, 1]
      (test_records 4 2) [⟨2, 1, [1, 2, 0, 1]⟩, ⟨2, 1, [9, 2, 0, 1]⟩]
      (List.replicate 12 77) (-5) (by decide)).2.2.2⟩

/-! ## The calls of a row function -/

theorem dequantize_row_log (E : Env) (U : Indeterminate) (s : Scheme)
    (x : List block_africa) (y : List float) (k : Int) (hk : 0 ≤ k)
    (hy : k.toNat ≤ y.length) :
    (dequantize_row E U s x y k).2
      = decode_log (BLOCK_SIZE E s) (codebook_size s) U x y k := by
  rw [dequantize_row_eq E U s x y k hk hy]

theorem decode_log_getElem? (QK cb : Nat) (U : Indeterminate) (x : List block_africa)
    (y : List float) (k : Int) (hk : 0 ≤ k) (i : Nat) (hi : i < block_count QK k) :
    (decode_log QK cb U x y k)[i]?
      = some (decode_call QK cb i (decide (k.toNat / QK ≤ i)) (x.getD i default)
          (if i < k.toNat / QK then x_block_at QK y i else local_array QK U.temp)) := by
  rw [block_count_eq QK k hk] at hi
  by_cases hfull : i < k.toNat / QK
  · rw [decode_log_full QK cb U x y k i hfull, if_pos hfull,
      decide_eq_false (Nat.not_le.mpr hfull)]
  · have hr : 0 < k.toNat % QK := by
      by_contra hcon
      rw [if_neg hcon] at hi
      omega
    rw [if_pos hr] at hi
    have hi' : i = k.toNat / QK := by omega
    subst hi'
    rw [decode_log_tail QK cb U x y k hr, if_neg hfull, decide_eq_true (Nat.le_refl _)]

theorem decode_log_block_count (QK cb : Nat) (U : Indeterminate) (x : List block_africa)
    (y : List float) (k : Int) (hk : 0 ≤ k) :
    (decode_log QK cb U x y k).length = block_count QK k := by
  rw [decode_log_length, block_count_eq QK k hk]

theorem getElem?_lt_length {α : Type} (l : List α) (i : Nat) (a : α) (h : l[i]? = some a) :
    i < l.length := by
  by_contra hcon
  rw [List.getElem?_eq_none (Nat.le_of_not_lt hcon)] at h
  exact Option.noConfusion h

/-- C11: for each scheme, every row length `k ≥ 0` and any behaviour of the C API, failing
calls included, a row quantize call makes exactly `block_count = ceil(k / BLOCK_SIZE)`
encode calls and a row dequantize call (into a vector of at least `k` floats) exactly
`block_count` decode calls; call number `i` is the call for block `i`, so the calls come
one per block in increasing block order, and no block is called twice. -/
theorem C11_no_retries (E : Env) (U : Indeterminate) (s : Scheme)
    (x : List float) (y : List block_africa) (xq : List block_africa) (yf : List float)
    (k : Int) (hk : 0 ≤ k) (hyf : k.toNat ≤ yf.length) :
    (block_count (BLOCK_SIZE E s) k : Int) = ⌈(k : ℚ) / (BLOCK_SIZE E s : ℚ)⌉
    ∧ (quantize_row E U s x y k).2.length = block_count (BLOCK_SIZE E s) k
    ∧ (∀ (i : Nat) (c : EncCall), (quantize_row E U s x y k).2[i]? = some c → c.record = i)
    ∧ (∀ (i i2 : Nat) (c c2 : EncCall), (quantize_row E U s x y k).2[i]? = some c →
          (quantize_row E U s x y k).2[i2]? = some c2 → c.record = c2.record → i = i2)
    ∧ (dequantize_row E U s xq yf k).2.length = block_count (BLOCK_SIZE E s) k
    ∧ (∀ (i : Nat) (c : DecCall), (dequantize_row E U s xq yf k).2[i]? = some c →
          c.record = i)
    ∧ (∀ (i i2 : Nat) (c c2 : DecCall), (dequantize_row E U s xq yf k).2[i]? = some c →
          (dequantize_row E U s xq yf k).2[i2]? = some c2 → c.record = c2.record →
          i = i2) := by
  have hq : ∀ (i : Nat) (c : EncCall),
      (quantize_row E U s x y k).2[i]? = some c → c.record = i := by
    intro i c hc
    have hi : i < block_count (BLOCK_SIZE E s) k := by
      rw [← quantize_row_log_length E U s x y k]
      exact getElem?_lt_length _ i c hc
    rw [quantize_row_log_getElem? E U s x y k i hi] at hc
    rw [← Option.some.inj hc]
    rfl
  have hd : ∀ (i : Nat) (c : DecCall),
      (dequantize_row E U s xq yf k).2[i]? = some c → c.record = i := by
    intro i c hc
    rw [dequantize_row_log E U s xq yf k hk hyf] at hc
    have hi : i < block_count (BLOCK_SIZE E s) k := by
      rw [← decode_log_block_count _ (codebook_size s) U xq yf k hk]
      exact getElem?_lt_length _ i c hc
    rw [decode_log_getElem? _ _ U xq yf k hk i hi] at hc
    rw [← Option.some.inj hc]
    rfl
  refine ⟨block_count_eq_ceil _ k (BLOCK_SIZE_pos E s) hk,
    quantize_row_log_length E U s x y k, hq, ?_, ?_, hd, ?_⟩
  · intro i i2 c c2 h1 h2 h
    rw [hq i c h1, hq i2 c2 h2] at h
    exact h
  · rw [dequantize_row_log E U s xq yf k hk hyf]
    exact decode_log_block_count _ _ U xq yf k hk
  · intro i i2 c c2 h1 h2 h
    rw [hd i c h1, hd i2 c2 h2] at h
    exact h

/-- C11 on a row of ten floats in blocks of four whose second block fails: three encode
calls, for blocks 0, 1, 2 in that order. -/
theorem C11_no_retries_witness :
    ((0 : Int) ≤ 10 ∧ (10 : Int).toNat ≤ (List.replicate 12 (77 : float)).length)
    ∧ (quantize_row test_env test_junk .africa_1_58 [1, 2, 3, 4, 99, 5, 6, 7, 1, 1]
        (test_records 4 2) 10).2.length = block_count (BLOCK_SIZE test_env .africa_1_58) 10
    ∧ block_count (BLOCK_SIZE test_env .africa_1_58) 10 = 3
    ∧ (quantize_row test_env test_junk .africa_1_58 [1, 2, 3, 4, 99, 5, 6, 7, 1, 1]
        (test_records 4 2) 10).2.map EncCall.record = [0, 1, 2]
    ∧ (quantize_row test_env test_junk .africa_1_58 [1, 2, 3, 4, 99, 5, 6, 7, 1, 1]
        (test_records 4 2) 10).2.map (fun c => (c.run test_quantize).success)
        = [true, false, true] :=
  ⟨⟨by decide, by decide⟩,
    (C11_no_retries test_env test_junk .africa_1_58 [1, 2, 3, 4, 99, 5, 6, 7, 1, 1]
      (test_records 4 2) [⟨2, 1, [1, 2, 0, 1]⟩, ⟨2, 1, [9, 2, 0, 1]⟩, ⟨3, 1, [1, 2, 0, 1]⟩]
      (List.replicate 12 77) 10 (by decide) (by decide)).2.1,
    by decide, by decide, by decide⟩

theorem weights_at_length (QK : Nat) (U : Indeterminate) (x : List float) (k : Int)
    (hQ : 0 < QK) (hk : 0 ≤ k) (hx : k.toNat ≤ x.length) (i : Nat)
    (hi : i < block_count QK k) : (weights_at QK U x k i).length = QK := by
  by_cases hfull : i < (nb QK k).toNat
  · rw [weights_at_full QK U x k i hfull]
    exact x_block_at_length QK x i (le_trans (full_block_in_row QK k i hk hfull) hx)
  · have hi' : i = (nb QK k).toNat := by
      unfold block_count at hi
      split at hi <;> omega
    subst hi'
    have hdm : (nb QK k).toNat * QK + (remainder QK k).toNat = k.toNat := by
      rw [nb_toNat QK k hk, remainder_toNat QK k hk]
      exact Nat.div_add_mod' _ _
    have hrl : (remainder QK k).toNat < QK := by
      rw [remainder_toNat QK k hk]
      exact Nat.mod_lt _ hQ
    rw [weights_at_tail QK U x k hk hx]
    simp [x_padded_at]
    omega

/-- C12: for each scheme and every row length `k ≥ 0` of a row held by `x`, every call of
the row quantizer hands encode exactly `BLOCK_SIZE` floats with
`count = block_size = BLOCK_SIZE`, and every call of the row dequantizer (into a vector of
at least `k` floats) asks decode for exactly `BLOCK_SIZE` values with
`count = block_size = BLOCK_SIZE` and gets `BLOCK_SIZE` values back, the remainder block
included; the remainder is smaller than `BLOCK_SIZE`, so no call sees a length equal to
it. -/
theorem C12_fixed_size (E : Env) (U : Indeterminate) (s : Scheme)
    (x : List float) (y : List block_africa) (xq : List block_africa) (yf : List float)
    (k : Int) (hk : 0 ≤ k) (hx : k.toNat ≤ x.length) (hyf : k.toNat ≤ yf.length) :
    (∀ c ∈ (quantize_row E U s x y k).2,
        c.weights.length = BLOCK_SIZE E s ∧ c.count = BLOCK_SIZE E s
        ∧ c.block_size = BLOCK_SIZE E s ∧ c.metadata.block_size = BLOCK_SIZE E s
        ∧ c.metadata.codebook_size = codebook_size s
        ∧ c.count ≠ (remainder (BLOCK_SIZE E s) k).toNat)
    ∧ (∀ c ∈ (dequantize_row E U s xq yf k).2,
        c.output.length = BLOCK_SIZE E s ∧ c.count = BLOCK_SIZE E s
        ∧ c.block_size = BLOCK_SIZE E s ∧ c.metadata.block_size = BLOCK_SIZE E s
        ∧ c.metadata.codebook_size = codebook_size s
        ∧ (c.run (decode E s)).output.length = BLOCK_SIZE E s
        ∧ c.count ≠ (remainder (BLOCK_SIZE E s) k).toNat)
    ∧ (remainder (BLOCK_SIZE E s) k).toNat < BLOCK_SIZE E s := by
  have hQ := BLOCK_SIZE_pos E s
  have hs := size_t_eq (BLOCK_SIZE_lt E s)
  have hu := uint32_t_eq (BLOCK_SIZE_lt E s)
  have hrl : (remainder (BLOCK_SIZE E s) k).toNat < BLOCK_SIZE E s := by
    rw [remainder_toNat _ k hk]
    exact Nat.mod_lt _ hQ
  refine ⟨?_, ?_, hrl⟩
  · intro c hc
    rw [quantize_row_log] at hc
    obtain ⟨i, hi, rfl⟩ := List.mem_map.mp hc
    have hi' := List.mem_range.mp hi
    refine ⟨weights_at_length _ U x k hQ hk hx i hi', hs, hu, hu, rfl, ?_⟩
    show size_t (BLOCK_SIZE E s) ≠ _
    rw [hs]
    omega
  · intro c hc
    rw [dequantize_row_log E U s xq yf k hk hyf] at hc
    obtain ⟨i, hic⟩ := List.mem_iff_getElem?.mp hc
    have hi : i < block_count (BLOCK_SIZE E s) k := by
      rw [← decode_log_block_count _ (codebook_size s) U xq yf k hk]
      exact getElem?_lt_length _ i c hic
    rw [decode_log_getElem? _ _ U xq yf k hk i hi] at hic
    have hc' := Option.some.inj hic
    subst hc'
    have hout : (if i < k.toNat / BLOCK_SIZE E s then x_block_at (BLOCK_SIZE E s) yf i
        else local_array (BLOCK_SIZE E s) U.temp).length = BLOCK_SIZE E s := by
      split
      · rename_i hfull
        rw [← nb_toNat _ k hk] at hfull
        exact x_block_at_length _ yf i (le_trans (full_block_in_row _ k i hk hfull) hyf)
      · exact local_array_length _ _
    refine ⟨hout, hs, hu, hu, rfl, ?_, ?_⟩
    · show (decode E s _ _ _ _ _).output.length = _
      rw [decode_length]
      exact hout
    · show size_t (BLOCK_SIZE E s) ≠ _
      rw [hs]
      omega

/-- C12 at the spec's scenario, `k = 40` with block size 32: both encode calls are handed
32 floats, the second being the padded remainder of 8. -/
theorem C12_fixed_size_witness :
    ((0 : Int) ≤ 40 ∧ (40 : Int).toNat ≤ (List.range 40).length
      ∧ (40 : Int).toNat ≤ (List.replicate 40 (77 : float)).length)
    ∧ (remainder (BLOCK_SIZE test_env .africa_1_28) 40).toNat = 8
    ∧ (remainder (BLOCK_SIZE test_env .africa_1_28) 40).toNat
        < BLOCK_SIZE test_env .africa_1_28
    ∧ (quantize_row test_env test_junk .africa_1_28 (List.range 40) (test_records 2 8)
        40).2.map (fun c => (c.weights.length, c.count, c.block_size))
        = [(32, 32, 32), (32, 32, 32)] :=
  ⟨⟨by decide, by decide, by decide⟩, by decide,
    (C12_fixed_size test_env test_junk .africa_1_28 (List.range 40) (test_records 2 8)
      [⟨2, 1, [1, 2, 0, 1, 1, 2, 0, 1]⟩, ⟨3, 5, [2, 1, 0, 2, 1, 0, 2, 1]⟩]
      (List.replicate 40 77) 40 (by decide) (by decide) (by decide)).2.2,
    by decide⟩

/-! ## Independence of the blocks -/

theorem block_elems_eq (QK : Nat) (x : List float) (k : Int) (j : Nat) :
    block_elems QK x k j = (x.drop (j * QK)).take (min QK (k.toNat - j * QK)) := by
  unfold block_elems
  rw [List.drop_take, List.take_take]

theorem weights_at_eq_block_elems (QK : Nat) (U : Indeterminate) (x : List float) (k : Int)
    (hQ : 0 < QK) (hk : 0 ≤ k) (hx : k.toNat ≤ x.length) (j : Nat) :
    weights_at QK U x k j
      = if j < (nb QK k).toNat then block_elems QK x k j
        else block_elems QK x k (nb QK k).toNat
          ++ List.replicate (QK - (remainder QK k).toNat) 0 := by
  have hdm : (nb QK k).toNat * QK + (remainder QK k).toNat = k.toNat := by
    rw [nb_toNat QK k hk, remainder_toNat QK k hk]
    exact Nat.div_add_mod' _ _
  have hrl : (remainder QK k).toNat < QK := by
    rw [remainder_toNat QK k hk]
    exact Nat.mod_lt _ hQ
  by_cases hfull : j < (nb QK k).toNat
  · have h1 := full_block_in_row QK k j hk hfull
    rw [Nat.add_mul, Nat.one_mul] at h1
    rw [if_pos hfull, weights_at_full QK U x k j hfull, block_elems_eq, x_block_at,
      Nat.min_eq_left (by omega)]
  · have hw : weights_at QK U x k j = weights_at QK U x k (nb QK k).toNat := by
      simp [weights_at, hfull]
    rw [if_neg hfull, hw, weights_at_tail QK U x k hk hx, block_elems_eq, x_padded_at,
      Nat.min_eq_right (by omega)]
    congr 2
    omega

/-- C13: for each scheme, every row length `k ≥ 0` and every block `j < block_count`,
record `j` written by the row quantizer is the same for two input rows of length `k` that
agree on block `j`'s elements `x[j*BLOCK_SIZE .. min((j+1)*BLOCK_SIZE, k))`, whatever
their other elements and whatever the C API answers for the other blocks; and the floats
the row dequantizer leaves in block `j`'s range are the same for two record arrays that
agree on record `j`, whatever their other records and whatever the C API answers for the
other blocks.  The two runs start from the same output buffer and the same contents of
the uninitialised locals. -/
theorem C13_block_independence (E E2 : Env) (U : Indeterminate) (s : Scheme)
    (x x2 : List float) (y : List block_africa) (xq xq2 : List block_africa)
    (yf : List float) (k : Int) (j : Nat)
    (hk : 0 ≤ k) (hx : k.toNat ≤ x.length) (hx2 : k.toNat ≤ x2.length)
    (hyf : k.toNat ≤ yf.length)
    (hBS : BLOCK_SIZE E2 s = BLOCK_SIZE E s)
    (hj : j < block_count (BLOCK_SIZE E s) k)
    (hblock : block_elems (BLOCK_SIZE E s) x2 k j = block_elems (BLOCK_SIZE E s) x k j)
    (hrecord : xq2[j]? = xq[j]?)
    (hE : ∀ c : EncCall, (quantize_row E U s x y k).2[j]? = some c →
      c.run (encode E2 s) = c.run (encode E s))
    (hD : ∀ c : DecCall, (dequantize_row E U s xq yf k).2[j]? = some c →
      c.run (decode E2 s) = c.run (decode E s)) :
    (quantize_row E2 U s x2 y k).1[j]? = (quantize_row E U s x y k).1[j]?
    ∧ ∀ p, j * BLOCK_SIZE E s ≤ p → p < (j + 1) * BLOCK_SIZE E s →
        (dequantize_row E2 U s xq2 yf k).1[p]? = (dequantize_row E U s xq yf k).1[p]? := by
  have hQ := BLOCK_SIZE_pos E s
  have hw : weights_at (BLOCK_SIZE E s) U x2 k j = weights_at (BLOCK_SIZE E s) U x k j := by
    rw [weights_at_eq_block_elems _ U x2 k hQ hk hx2 j,
      weights_at_eq_block_elems _ U x k hQ hk hx j]
    by_cases hfull : j < (nb (BLOCK_SIZE E s) k).toNat
    · rw [if_pos hfull, if_pos hfull, hblock]
    · have hj' : j = (nb (BLOCK_SIZE E s) k).toNat := by
        unfold block_count at hj
        split at hj <;> omega
      rw [if_neg hfull, if_neg hfull, ← hj', hblock]
  constructor
  · rw [quantize_row_getElem?, quantize_row_getElem?, hBS, hw]
    cases hyj : y[j]? with
    | none => rfl
    | some b =>
      simp only [Option.map_some', if_pos hj]
      congr 1
      apply encode_step_congr (BLOCK_SIZE E s) (codebook_size s) (encode E s) (encode E2 s)
        U j (decide ((nb (BLOCK_SIZE E s) k).toNat ≤ j))
      apply hE
      rw [quantize_row_log_getElem? E U s x y k j hj,
        getD_of_getElem? y j b default hyj]
  · intro p h1 h2
    by_cases hpk : k.toNat ≤ p
    · rw [dequantize_row_frame E2 U s xq2 yf k hk hyf p hpk,
        dequantize_row_frame E U s xq yf k hk hyf p hpk]
    · have hpk' : p < k.toNat := Nat.lt_of_not_le hpk
      have hpj := block_index_unique _ p j h1 h2
      have hxb : xq2.getD j default = xq.getD j default := by
        rw [List.getD_eq_getElem?_getD, List.getD_eq_getElem?_getD, hrecord]
      have hlog := decode_log_getElem? (BLOCK_SIZE E s) (codebook_size s) U xq yf k hk j hj
      rw [← dequantize_row_log E U s xq yf k hk hyf] at hlog
      have hrun := hD _ hlog
      rw [dequantize_row_getElem? E2 U s xq2 yf k hk hyf p hpk',
        dequantize_row_getElem? E U s xq yf k hk hyf p hpk', hBS, hpj]
      congr 1
      unfold decode_block
      rw [hxb]
      by_cases hfull : j < k.toNat / BLOCK_SIZE E s
      · rw [if_pos hfull] at hrun
        rw [if_pos hfull, if_pos hfull]
        exact decode_step_congr _ _ _ _ j _ _ _ hrun
      · rw [if_neg hfull] at hrun
        have hdec : decide (k.toNat / BLOCK_SIZE E s ≤ j) = true :=
          decide_eq_true (Nat.le_of_not_lt hfull)
        rw [hdec] at hrun
        rw [if_neg hfull, if_neg hfull]
        exact decode_tail_congr _ _ _ _ U j _ _ hrun

/-- C13 on two rows of ten floats in blocks of four that agree on the first block only
(the second block of the first row makes the test double fail, that of the other row does
not): the first record is the same. -/
theorem C13_block_independence_witness :
    ((0 : Int) ≤ 10 ∧ (10 : Int).toNat ≤ [1, 2, 3, 4, 99, 5, 6, 7, 1, 1].length
      ∧ (10 : Int).toNat ≤ [1, 2, 3, 4, 0, 0, 0, 0, 9, 9].length
      ∧ (10 : Int).toNat ≤ (List.replicate 12 (77 : float)).length
      ∧ BLOCK_SIZE test_env .africa_1_58 = BLOCK_SIZE test_env .africa_1_58
      ∧ 0 < block_count (BLOCK_SIZE test_env .africa_1_58) 10
      ∧ block_elems (BLOCK_SIZE test_env .africa_1_58) [1, 2, 3, 4, 0, 0, 0, 0, 9, 9] 10 0
          = block_elems (BLOCK_SIZE test_env .africa_1_58)
              [1, 2, 3, 4, 99, 5, 6, 7, 1, 1] 10 0
      ∧ [(⟨2, 1, [1, 2, 0, 1]⟩ : block_africa), ⟨7, 7, [0, 0, 0, 0]⟩][0]?
          = [(⟨2, 1, [1, 2, 0, 1]⟩ : block_africa), ⟨2, 1, [9, 2, 0, 1]⟩,
              ⟨3, 1, [1, 2, 0, 1]⟩][0]?)
    ∧ (quantize_row test_env test_junk .africa_1_58 [1, 2, 3, 4, 0, 0, 0, 0, 9, 9]
        (test_records 4 2) 10).1[0]?
      = (quantize_row test_env test_junk .africa_1_58 [1, 2, 3, 4, 99, 5, 6, 7, 1, 1]
        (test_records 4 2) 10).1[0]?
    ∧ (quantize_row test_env test_junk .africa_1_58 [1, 2, 3, 4, 0, 0, 0, 0, 9, 9]
        (test_records 4 2) 10).1[1]?
      ≠ (quantize_row test_env test_junk .africa_1_58 [1, 2, 3, 4, 99, 5, 6, 7, 1, 1]
        (test_records 4 2) 10).1[1]? :=
  ⟨⟨by decide, by decide, by decide, by decide, rfl, by decide, by decide, by decide⟩,
    (C13_block_independence test_env test_env test_junk .africa_1_58
      [1, 2, 3, 4, 99, 5, 6, 7, 1, 1] [1, 2, 3, 4, 0, 0, 0, 0, 9, 9] (test_records 4 2)
      [⟨2, 1, [1, 2, 0, 1]⟩, ⟨2, 1, [9, 2, 0, 1]⟩, ⟨3, 1, [1, 2, 0, 1]⟩]
      [⟨2, 1, [1, 2, 0, 1]⟩, ⟨7, 7, [0, 0, 0, 0]⟩]
      (List.replicate 12 77) 10 0 (by decide) (by decide) (by decide) (by decide) rfl
      (by decide) (by decide) (by decide) (fun _ _ => rfl) (fun _ _ => rfl)).1,
    by decide⟩

/-! ## A decode whose success and values are a function of the codes and the metadata -/

theorem test_dequantize_is_function : decode_is_function test_dequantize := by
  intro q c o o2 m b h
  unfold test_dequantize
  split_ifs with hq <;> simp [h]

/-- The decoder that fails without writing meets the contract, although what it leaves at
`output` on failure is the prior contents. -/
theorem test_dequantize_lazy_is_function : decode_is_function test_dequantize_lazy := by
  intro q c o o2 m b h
  unfold test_dequantize_lazy
  split_ifs with hq <;> simp [h]

/-- Under the contract, a value computed from a call as the row functions do, from the
output on success and without it on failure, does not depend on the prior buffer. -/
theorem decode_result_indep {β : Type} (d : DequantizeFn) (hfun : decode_is_function d)
    (q : List uint8_t) (c : Nat) (o o2 : List float) (m : QuantizationMeta) (b : Nat)
    (h : o.length = o2.length) (f : List float → β) (z : β) :
    (if (d q c o m b).success then f (d q c o m b).output else z)
      = (if (d q c o2 m b).success then f (d q c o2 m b).output else z) := by
  obtain ⟨hs, ho⟩ := hfun q c o o2 m b h
  cases hsucc : (d q c o m b).success
  · rw [hsucc] at hs
    rw [← hs]
    rfl
  · have h1 := ho hsucc
    rw [hsucc] at hs
    rw [← hs, h1]

theorem decode_step_indep (QK cb : Nat) (d : DequantizeFn) (hfun : decode_is_function d)
    (xb : block_africa) (yb yb2 : List float) (h : yb.length = yb2.length) :
    decode_step QK cb d xb yb = decode_step QK cb d xb yb2 := by
  unfold decode_step
  exact decode_result_indep d hfun xb.qs (size_t QK) yb yb2 (decode_meta QK cb xb)
    (uint32_t QK) h (fun l => l) (List.replicate QK 0)

theorem generic_decode_indep (QK cb : Nat) (d : DequantizeFn) (hfun : decode_is_function d)
    (x : List block_africa) (y y2 : List float) (n : Nat)
    (hy : n * QK ≤ y.length) (hy2 : n * QK ≤ y2.length) :
    generic_decode QK cb d x y n = generic_decode QK cb d x y2 n := by
  induction n with
  | zero => rfl
  | succ n ih =>
    have h1 : n * QK ≤ y.length := by
      rw [Nat.add_mul] at hy
      omega
    have h2 : n * QK ≤ y2.length := by
      rw [Nat.add_mul] at hy2
      omega
    rw [generic_decode_succ, generic_decode_succ, ih h1 h2,
      decode_step_indep QK cb d hfun _ (x_block_at QK y n) (x_block_at QK y2 n)
        (by rw [x_block_at_length QK y n hy, x_block_at_length QK y2 n hy2])]

theorem decode_tail_indep (QK cb : Nat) (d : DequantizeFn) (hfun : decode_is_function d)
    (U U2 : Indeterminate) (xb : block_africa) (r : Nat) :
    decode_tail QK cb d U xb r = decode_tail QK cb d U2 xb r := by
  unfold decode_tail
  exact decode_result_indep d hfun xb.qs (size_t QK) (local_array QK U.temp)
    (local_array QK U2.temp) (decode_meta QK cb xb) (uint32_t QK)
    (by rw [local_array_length, local_array_length]) (fun l => l.take r)
    (List.replicate r 0)

/-- Under the contract, the remainder range is the first `r` floats of the decode step of
a full block on the same record, whichever way the call goes. -/
theorem decode_tail_eq_take_step (QK cb : Nat) (d : DequantizeFn)
    (hfun : decode_is_function d) (U : Indeterminate) (xb : block_africa)
    (yb : List float) (r : Nat) (hyb : yb.length = QK) (hr : r ≤ QK) :
    decode_tail QK cb d U xb r = (decode_step QK cb d xb yb).take r := by
  have h := decode_result_indep d hfun xb.qs (size_t QK) (local_array QK U.temp) yb
    (decode_meta QK cb xb) (uint32_t QK) (by rw [local_array_length, hyb])
    (fun l => l.take r) (List.replicate r 0)
  unfold decode_tail decode_step
  simp only
  rw [h]
  split
  · rfl
  · rw [List.take_replicate, Nat.min_eq_left hr]

theorem decode_floats_indep (QK cb : Nat) (d : DequantizeFn) (hfun : decode_is_function d)
    (U U2 : Indeterminate) (x : List block_africa) (y y2 : List float) (k : Int)
    (hy : k.toNat ≤ y.length) (hy2 : k.toNat ≤ y2.length) :
    decode_floats QK cb d U x y k = decode_floats QK cb d U2 x y2 k := by
  have hdm : k.toNat / QK * QK + k.toNat % QK = k.toNat := Nat.div_add_mod' _ _
  unfold decode_floats
  rw [generic_decode_indep QK cb d hfun x y y2 _ (by omega) (by omega),
    decode_tail_indep QK cb d hfun U U2]

/-- C14: for each scheme, every row length `k ≥ 0` and every record array `x`, with a
decode whose success, and on success whose values, are a function of the codes and the
metadata (a failing call may leave anything at its output, the prior contents included),
two runs of the row dequantizer on the same `x` and `k` give the same `k` floats, whatever
the output vectors and the scratch array held before; a second run over the output of the
first changes nothing.  The record array is an input only: both runs read the same `x`. -/
theorem C14_decode_idempotent (E : Env) (U U2 : Indeterminate) (s : Scheme)
    (x : List block_africa) (y y2 : List float) (k : Int)
    (hk : 0 ≤ k) (hy : k.toNat ≤ y.length) (hy2 : k.toNat ≤ y2.length)
    (hfun : decode_is_function (decode E s)) :
    (dequantize_row E U s x y k).1.take k.toNat
        = (dequantize_row E U2 s x y2 k).1.take k.toNat
    ∧ ((dequantize_row E U s x y k).1.take k.toNat).length = k.toNat
    ∧ (dequantize_row E U2 s x (dequantize_row E U s x y k).1 k).1
        = (dequantize_row E U s x y k).1 := by
  have hQ := BLOCK_SIZE_pos E s
  have hl := decode_floats_length (BLOCK_SIZE E s) (codebook_size s) (decode E s) hQ
    (decode_length E s) U x y k hy
  have hl2 := decode_floats_length (BLOCK_SIZE E s) (codebook_size s) (decode E s) hQ
    (decode_length E s) U2 x y2 k hy2
  have hlen := dequantize_row_length E U s x y k hk hy
  refine ⟨?_, ?_, ?_⟩
  · rw [dequantize_row_eq E U s x y k hk hy, dequantize_row_eq E U2 s x y2 k hk hy2]
    simp only
    rw [List.take_left' hl, List.take_left' hl2]
    exact decode_floats_indep _ _ _ hfun U U2 x y y2 k hy hy2
  · rw [List.length_take, hlen]
    exact Nat.min_eq_left hy
  · have hy3 : k.toNat ≤ (dequantize_row E U s x y k).1.length := by
      rw [hlen]
      exact hy
    rw [dequantize_row_eq E U2 s x _ k hk hy3]
    simp only
    rw [decode_floats_indep _ _ _ hfun U2 U x _ y k hy3 hy]
    rw [dequantize_row_eq E U s x y k hk hy]
    simp only
    rw [List.drop_left' hl]

/-- C14 on a row of ten floats in blocks of four whose second and last records make the
decoder fail without writing, decoded into two different vectors with two different
scratch contents: the ten floats are the same, the failed ranges being zeros. -/
theorem C14_decode_idempotent_witness :
    ((0 : Int) ≤ 10 ∧ (10 : Int).toNat ≤ (List.replicate 12 (77 : float)).length
      ∧ (10 : Int).toNat ≤ (List.range 10).length)
    ∧ (test_dequantize_lazy [9, 2, 0, 1] 4 [77, 77, 77, 77] ⟨2, 1, 4, 4⟩ 4).output
        = [77, 77, 77, 77]
    ∧ (test_dequantize_lazy [9, 2, 0, 1] 4 [4, 5, 6, 7] ⟨2, 1, 4, 4⟩ 4).output
        = [4, 5, 6, 7]
    ∧ (dequantize_row test_env_lazy test_junk .africa_1_58
        [⟨2, 1, [1, 2, 0, 1]⟩, ⟨2, 1, [9, 2, 0, 1]⟩, ⟨3, 1, [9, 2, 0, 1]⟩]
        (List.replicate 12 77) 10).1.take (10 : Int).toNat
      = (dequantize_row test_env_lazy ⟨fun _ => 0, fun _ => 0, fun _ => 0, fun _ => 6⟩
        .africa_1_58
        [⟨2, 1, [1, 2, 0, 1]⟩, ⟨2, 1, [9, 2, 0, 1]⟩, ⟨3, 1, [9, 2, 0, 1]⟩]
        (List.range 10) 10).1.take (10 : Int).toNat
    ∧ (dequantize_row test_env_lazy test_junk .africa_1_58
        [⟨2, 1, [1, 2, 0, 1]⟩, ⟨2, 1, [9, 2, 0, 1]⟩, ⟨3, 1, [9, 2, 0, 1]⟩]
        (List.replicate 12 77) 10).1 = [3, 5, 1, 3, 0, 0, 0, 0, 0, 0, 77, 77] :=
  ⟨⟨by decide, by decide, by decide⟩, by decide, by decide,
    (C14_decode_idempotent test_env_lazy test_junk
      ⟨fun _ => 0, fun _ => 0, fun _ => 0, fun _ => 6⟩
      .africa_1_58 [⟨2, 1, [1, 2, 0, 1]⟩, ⟨2, 1, [9, 2, 0, 1]⟩, ⟨3, 1, [9, 2, 0, 1]⟩]
      (List.replicate 12 77) (List.range 10) 10 (by decide) (by decide) (by decide)
      test_dequantize_lazy_is_function).1,
    by decide⟩

theorem block_count_mul_ge (QK : Nat) (k : Int) (hQ : 0 < QK) (hk : 0 ≤ k) :
    k.toNat ≤ block_count QK k * QK := by
  have hdm : k.toNat / QK * QK + k.toNat % QK = k.toNat := Nat.div_add_mod' _ _
  have hlt := Nat.mod_lt k.toNat hQ
  rw [block_count_eq QK k hk]
  split
  · rw [Nat.add_mul, Nat.one_mul]
    omega
  · rw [Nat.add_zero]
    omega

theorem take_append_add {α : Type} (l1 l2 : List α) (n r : Nat) (h : l1.length = n) :
    (l1 ++ l2).take (n + r) = l1 ++ l2.take r := by
  subst h
  exact List.take_append _

theorem decode_floats_full_length (QK cb : Nat) (d : DequantizeFn) (U : Indeterminate)
    (x : List block_africa) (y : List float) (n : Nat) (hQ : 0 < QK) :
    decode_floats QK cb d U x y ((n * QK : Nat) : Int) = generic_decode QK cb d x y n := by
  unfold decode_floats
  rw [Int.toNat_ofNat, Nat.mul_div_cancel _ hQ, Nat.mul_mod_left, if_neg (lt_irrefl 0),
    List.append_nil]

/-- C16: for each scheme, every row length `k ≥ 0` and every record array `x`, with a
decode whose success, and on success whose values, are a function of the codes and the
metadata (a failing call may leave anything at its output, the prior contents included),
the `k` floats the row dequantizer produces for length `k` are the first `k` of the floats
it produces for the full length `block_count * BLOCK_SIZE` on the same records, whichever
calls succeed or fail; a failed remainder block gives zeros in both. -/
theorem C16_decode_truncation (E : Env) (U U2 : Indeterminate) (s : Scheme)
    (x : List block_africa) (y y2 : List float) (k : Int)
    (hk : 0 ≤ k) (hy : k.toNat ≤ y.length)
    (hy2 : block_count (BLOCK_SIZE E s) k * BLOCK_SIZE E s ≤ y2.length)
    (hfun : decode_is_function (decode E s)) :
    (dequantize_row E U s x y k).1.take k.toNat
        = ((dequantize_row E U2 s x y2
            ((block_count (BLOCK_SIZE E s) k * BLOCK_SIZE E s : Nat) : Int)).1).take k.toNat
    ∧ k.toNat ≤ block_count (BLOCK_SIZE E s) k * BLOCK_SIZE E s
    ∧ (block_count (BLOCK_SIZE E s) k : Int) = ⌈(k : ℚ) / (BLOCK_SIZE E s : ℚ)⌉ := by
  have hQ := BLOCK_SIZE_pos E s
  have hge := block_count_mul_ge (BLOCK_SIZE E s) k hQ hk
  refine ⟨?_, hge, block_count_eq_ceil _ k hQ hk⟩
  have hK : (0 : Int) ≤ ((block_count (BLOCK_SIZE E s) k * BLOCK_SIZE E s : Nat) : Int) :=
    Int.ofNat_nonneg _
  have hy2' : (((block_count (BLOCK_SIZE E s) k * BLOCK_SIZE E s : Nat) : Int)).toNat
      ≤ y2.length := by
    rw [Int.toNat_ofNat]
    exact hy2
  have hl := decode_floats_length (BLOCK_SIZE E s) (codebook_size s) (decode E s) hQ
    (decode_length E s) U x y k hy
  have hdm : k.toNat / BLOCK_SIZE E s * BLOCK_SIZE E s + k.toNat % BLOCK_SIZE E s = k.toNat :=
    Nat.div_add_mod' _ _
  have hlt := Nat.mod_lt k.toNat hQ
  have hbc := block_count_eq (BLOCK_SIZE E s) k hk
  rw [dequantize_row_eq E U s x y k hk hy, dequantize_row_eq E U2 s x y2 _ hK hy2']
  simp only
  rw [List.take_left' hl, decode_floats_full_length _ _ _ U2 x y2 _ hQ]
  unfold decode_floats
  by_cases hr : 0 < k.toNat % BLOCK_SIZE E s
  · rw [if_pos hr] at hbc
    rw [if_pos hr, hbc, generic_decode_succ, List.append_assoc]
    rw [hbc, Nat.add_mul, Nat.one_mul] at hy2
    have hG := generic_decode_length (BLOCK_SIZE E s) (codebook_size s) (decode E s)
      (decode_length E s) x y2 (k.toNat / BLOCK_SIZE E s) (by omega)
    have hk_eq : ∀ l : List float, l.take k.toNat
        = l.take (k.toNat / BLOCK_SIZE E s * BLOCK_SIZE E s + k.toNat % BLOCK_SIZE E s) := by
      intro l
      rw [hdm]
    rw [hk_eq, take_append_add _ _ _ _ hG]
    rw [generic_decode_indep _ _ _ hfun x y y2 _ (by omega) (by omega)]
    congr 1
    have hblk := x_block_at_length (BLOCK_SIZE E s) y2 (k.toNat / BLOCK_SIZE E s)
      (by rw [Nat.add_mul, Nat.one_mul]; exact hy2)
    have hstep : (decode_step (BLOCK_SIZE E s) (codebook_size s) (decode E s)
        (x.getD (k.toNat / BLOCK_SIZE E s) default)
        (x_block_at (BLOCK_SIZE E s) y2 (k.toNat / BLOCK_SIZE E s))).length
        = BLOCK_SIZE E s :=
      decode_step_length _ _ _ (decode_length E s) _ _ hblk
    rw [List.take_append_of_le_length (by rw [hstep]; omega)]
    exact decode_tail_eq_take_step _ _ _ hfun U _ _ _ hblk (Nat.le_of_lt hlt)
  · rw [if_neg hr, Nat.add_zero] at hbc
    have h0 : k.toNat % BLOCK_SIZE E s = 0 := by omega
    rw [if_neg hr, List.append_nil, hbc]
    rw [hbc] at hy2
    have hG := generic_decode_length (BLOCK_SIZE E s) (codebook_size s) (decode E s)
      (decode_length E s) x y2 (k.toNat / BLOCK_SIZE E s) hy2
    rw [List.take_left' (by rw [hG]; omega)]
    exact generic_decode_indep _ _ _ hfun x y y2 _ (by omega) hy2

/-- C16 on a row of ten floats in blocks of four whose second and last records make the
decoder fail without writing: the ten floats are the first ten of the twelve decoded for
the full length. -/
theorem C16_decode_truncation_witness :
    ((0 : Int) ≤ 10 ∧ (10 : Int).toNat ≤ (List.replicate 10 (77 : float)).length
      ∧ block_count (BLOCK_SIZE test_env_lazy .africa_1_58) 10
          * BLOCK_SIZE test_env_lazy .africa_1_58
          ≤ (List.replicate 12 (55 : float)).length)
    ∧ block_count (BLOCK_SIZE test_env_lazy .africa_1_58) 10
        * BLOCK_SIZE test_env_lazy .africa_1_58 = 12
    ∧ (dequantize_row test_env_lazy test_junk .africa_1_58
        [⟨2, 1, [1, 2, 0, 1]⟩, ⟨2, 1, [9, 2, 0, 1]⟩, ⟨3, 1, [9, 2, 0, 1]⟩]
        (List.replicate 10 77) 10).1.take (10 : Int).toNat
      = ((dequantize_row test_env_lazy test_junk .africa_1_58
        [⟨2, 1, [1, 2, 0, 1]⟩, ⟨2, 1, [9, 2, 0, 1]⟩, ⟨3, 1, [9, 2, 0, 1]⟩]
        (List.replicate 12 55)
        ((block_count (BLOCK_SIZE test_env_lazy .africa_1_58) 10
          * BLOCK_SIZE test_env_lazy .africa_1_58 : Nat) : Int)).1).take (10 : Int).toNat
    ∧ (dequantize_row test_env_lazy test_junk .africa_1_58
        [⟨2, 1, [1, 2, 0, 1]⟩, ⟨2, 1, [9, 2, 0, 1]⟩, ⟨3, 1, [9, 2, 0, 1]⟩]
        (List.replicate 12 55) 12).1 = [3, 5, 1, 3, 0, 0, 0, 0, 0, 0, 0, 0] :=
  ⟨⟨by decide, by decide, by decide⟩, by decide,
    (C16_decode_truncation test_env_lazy test_junk test_junk .africa_1_58
      [⟨2, 1, [1, 2, 0, 1]⟩, ⟨2, 1, [9, 2, 0, 1]⟩, ⟨3, 1, [9, 2, 0, 1]⟩]
      (List.replicate 10 77) (List.replicate 12 55) 10 (by decide) (by decide) (by decide)
      test_dequantize_lazy_is_function).1,
    by decide⟩

/-! ## Rows put end to end -/

theorem toNat_append_length (n QK : Nat) (kb : Int) (hkb : 0 ≤ kb) :
    (((n * QK : Nat) : Int) + kb).toNat = n * QK + kb.toNat := by
  omega

theorem nb_append (n QK : Nat) (kb : Int) (hQ : 0 < QK) (hkb : 0 ≤ kb) :
    (nb QK (((n * QK : Nat) : Int) + kb)).toNat = n + (nb QK kb).toNat := by
  have hK : (0 : Int) ≤ ((n * QK : Nat) : Int) + kb := by omega
  rw [nb_toNat QK _ hK, nb_toNat QK kb hkb, toNat_append_length n QK kb hkb,
    Nat.add_comm (n * QK), Nat.add_mul_div_right _ _ hQ, Nat.add_comm]

theorem remainder_append (n QK : Nat) (kb : Int) (hkb : 0 ≤ kb) :
    remainder QK (((n * QK : Nat) : Int) + kb) = remainder QK kb := by
  have hK : (0 : Int) ≤ ((n * QK : Nat) : Int) + kb := by omega
  rw [remainder_eq QK _ hK, remainder_eq QK kb hkb, toNat_append_length n QK kb hkb,
    Nat.add_comm (n * QK), Nat.add_mul_mod_self_right]

theorem block_count_append (n QK : Nat) (kb : Int) (hQ : 0 < QK) (hkb : 0 ≤ kb) :
    block_count QK (((n * QK : Nat) : Int) + kb) = n + block_count QK kb := by
  unfold block_count
  rw [nb_append n QK kb hQ hkb, remainder_append n QK kb hkb, Nat.add_assoc]

theorem nb_multiple (n QK : Nat) (hQ : 0 < QK) : (nb QK ((n * QK : Nat) : Int)).toNat = n := by
  have h := nb_append n QK 0 hQ (le_refl 0)
  simpa [nb] using h

theorem block_count_multiple (n QK : Nat) (hQ : 0 < QK) :
    block_count QK ((n * QK : Nat) : Int) = n := by
  have h := block_count_append n QK 0 hQ (le_refl 0)
  rw [Int.add_zero, block_count_of_nonpos QK 0 (le_refl 0)] at h
  exact h

theorem drop_append_block {α : Type} (a b : List α) (n QK i : Nat) (ha : a.length = n * QK) :
    (a ++ b).drop ((n + i) * QK) = b.drop (i * QK) := by
  rw [Nat.add_mul, ← ha]
  exact List.drop_append _

theorem x_block_at_append_right (QK : Nat) (a b : List float) (n i : Nat)
    (ha : a.length = n * QK) : x_block_at QK (a ++ b) (n + i) = x_block_at QK b i := by
  unfold x_block_at
  rw [drop_append_block a b n QK i ha]

theorem x_block_at_append_left (QK : Nat) (a b : List float) (i : Nat)
    (h : (i + 1) * QK ≤ a.length) : x_block_at QK (a ++ b) i = x_block_at QK a i := by
  have h' : i * QK + QK ≤ a.length := by
    rw [Nat.add_mul, Nat.one_mul] at h
    exact h
  unfold x_block_at
  rw [List.drop_append_of_le_length (by omega), List.take_append_of_le_length]
  rw [List.length_drop]
  omega

theorem weights_at_append_right (QK : Nat) (U : Indeterminate) (a b : List float)
    (n : Nat) (kb : Int) (hQ : 0 < QK) (ha : a.length = n * QK) (hkb : 0 ≤ kb) (i : Nat) :
    weights_at QK U (a ++ b) (((n * QK : Nat) : Int) + kb) (n + i)
      = weights_at QK (U.shift n) b kb i := by
  unfold weights_at
  rw [nb_append n QK kb hQ hkb, remainder_append n QK kb hkb]
  by_cases hi : i < (nb QK kb).toNat
  · rw [if_pos (by omega), if_pos hi, x_block_at_append_right QK a b n i ha]
  · rw [if_neg (by omega), if_neg hi]
    unfold x_padded_src
    rw [drop_append_block a b n QK _ ha]
    rfl

theorem weights_at_append_left (QK : Nat) (U : Indeterminate) (a b : List float)
    (n : Nat) (kb : Int) (hQ : 0 < QK) (ha : a.length = n * QK) (hkb : 0 ≤ kb) (i : Nat)
    (hi : i < n) :
    weights_at QK U (a ++ b) (((n * QK : Nat) : Int) + kb) i
      = weights_at QK U a ((n * QK : Nat) : Int) i := by
  have h1 : i < (nb QK (((n * QK : Nat) : Int) + kb)).toNat := by
    rw [nb_append n QK kb hQ hkb]
    omega
  have h2 : i < (nb QK ((n * QK : Nat) : Int)).toNat := by
    rw [nb_multiple n QK hQ]
    exact hi
  rw [weights_at_full QK U _ _ i h1, weights_at_full QK U _ _ i h2]
  apply x_block_at_append_left
  rw [ha]
  exact Nat.mul_le_mul_right QK hi

theorem quantize_row_length (E : Env) (U : Indeterminate) (s : Scheme)
    (x : List float) (y : List block_africa) (k : Int) :
    (quantize_row E U s x y k).1.length = y.length := by
  rw [quantize_row_eq]
  exact List.length_mapIdx

/-- The records of a row made of `n` full blocks `a` followed by a row `b`, written into
a buffer whose first `n` records are `ya`. -/
theorem quantize_row_append (E : Env) (U : Indeterminate) (s : Scheme)
    (a b : List float) (ya yb : List block_africa) (n : Nat) (kb : Int) (hkb : 0 ≤ kb)
    (ha : a.length = n * BLOCK_SIZE E s) (hya : ya.length = n) :
    (quantize_row E U s (a ++ b) (ya ++ yb)
        (((n * BLOCK_SIZE E s : Nat) : Int) + kb)).1
      = (quantize_row E U s a ya ((n * BLOCK_SIZE E s : Nat) : Int)).1
        ++ (quantize_row E (U.shift n) s b yb kb).1 := by
  have hQ := BLOCK_SIZE_pos E s
  have hlen : (quantize_row E U s a ya ((n * BLOCK_SIZE E s : Nat) : Int)).1.length = n := by
    rw [quantize_row_length, hya]
  apply List.ext_getElem?
  intro j
  rw [quantize_row_getElem?, block_count_append n _ kb hQ hkb]
  by_cases hj : j < n
  · have hL : (ya ++ yb)[j]? = ya[j]? :=
      List.getElem?_append_left (by rw [hya]; exact hj)
    have hR : ((quantize_row E U s a ya ((n * BLOCK_SIZE E s : Nat) : Int)).1
        ++ (quantize_row E (U.shift n) s b yb kb).1)[j]?
        = (quantize_row E U s a ya ((n * BLOCK_SIZE E s : Nat) : Int)).1[j]? :=
      List.getElem?_append_left (by rw [hlen]; exact hj)
    rw [hL, hR, quantize_row_getElem?, block_count_multiple n _ hQ]
    simp only [if_pos hj, if_pos (Nat.lt_add_right _ hj),
      weights_at_append_left _ U a b n kb hQ ha hkb j hj]
  · obtain ⟨i, rfl⟩ : ∃ i, j = n + i := ⟨j - n, by omega⟩
    have hL : (ya ++ yb)[n + i]? = yb[i]? := by
      rw [List.getElem?_append_right (by rw [hya]; omega), hya, Nat.add_sub_cancel_left]
    have hR : ((quantize_row E U s a ya ((n * BLOCK_SIZE E s : Nat) : Int)).1
        ++ (quantize_row E (U.shift n) s b yb kb).1)[n + i]?
        = (quantize_row E (U.shift n) s b yb kb).1[i]? := by
      rw [List.getElem?_append_right (by rw [hlen]; omega), hlen, Nat.add_sub_cancel_left]
    rw [hL, hR, quantize_row_getElem?, weights_at_append_right _ U a b n kb hQ ha hkb i]
    have hiff : (n + i < n + block_count (BLOCK_SIZE E s) kb)
        = (i < block_count (BLOCK_SIZE E s) kb) := by
      apply propext
      omega
    simp only [hiff]
    rfl

theorem generic_decode_add (QK cb : Nat) (d : DequantizeFn) (x : List block_africa)
    (y : List float) (n m : Nat) :
    generic_decode QK cb d x y (n + m)
      = generic_decode QK cb d x y n
        ++ generic_decode QK cb d (x.drop n) (y.drop (n * QK)) m := by
  induction m with
  | zero => simp [generic_decode]
  | succ m ih =>
    have hx : (x.drop n).getD m default = x.getD (n + m) default := by
      rw [List.getD_eq_getElem?_getD, List.getD_eq_getElem?_getD, List.getElem?_drop]
    have hy : x_block_at QK (y.drop (n * QK)) m = x_block_at QK y (n + m) := by
      unfold x_block_at
      rw [List.drop_drop, Nat.add_mul]
    rw [← Nat.add_assoc, generic_decode_succ, ih, generic_decode_succ, hx, hy,
      List.append_assoc]

theorem generic_decode_append_left (QK cb : Nat) (d : DequantizeFn)
    (xa xb : List block_africa) (fa fb : List float) (n : Nat) (hx : n ≤ xa.length)
    (hf : n * QK ≤ fa.length) :
    generic_decode QK cb d (xa ++ xb) (fa ++ fb) n = generic_decode QK cb d xa fa n := by
  induction n with
  | zero => rfl
  | succ n ih =>
    have h1 : n * QK ≤ fa.length := by
      rw [Nat.add_mul] at hf
      omega
    have hg : (xa ++ xb).getD n default = xa.getD n default := by
      rw [List.getD_eq_getElem?_getD, List.getD_eq_getElem?_getD,
        List.getElem?_append_left (by omega)]
    rw [generic_decode_succ, generic_decode_succ, ih (by omega) h1, hg,
      x_block_at_append_left QK fa fb n hf]

/-- The floats decoded from `n` records `xa` followed by records `xb`, into a vector whose
first `n` blocks are `fa`. -/
theorem dequantize_row_append (E : Env) (U : Indeterminate) (s : Scheme)
    (xa xb : List block_africa) (fa fb : List float) (n : Nat) (kb : Int) (hkb : 0 ≤ kb)
    (hxa : xa.length = n) (hfa : fa.length = n * BLOCK_SIZE E s)
    (hfb : kb.toNat ≤ fb.length) :
    (dequantize_row E U s (xa ++ xb) (fa ++ fb)
        (((n * BLOCK_SIZE E s : Nat) : Int) + kb)).1
      = (dequantize_row E U s xa fa ((n * BLOCK_SIZE E s : Nat) : Int)).1
        ++ (dequantize_row E U s xb fb kb).1 := by
  have hQ := BLOCK_SIZE_pos E s
  have hK : (0 : Int) ≤ ((n * BLOCK_SIZE E s : Nat) : Int) + kb := by omega
  have hKn := toNat_append_length n (BLOCK_SIZE E s) kb hkb
  have hdiv : (n * BLOCK_SIZE E s + kb.toNat) / BLOCK_SIZE E s
      = n + kb.toNat / BLOCK_SIZE E s := by
    rw [Nat.add_comm (n * BLOCK_SIZE E s), Nat.add_mul_div_right _ _ hQ, Nat.add_comm]
  have hmod : (n * BLOCK_SIZE E s + kb.toNat) % BLOCK_SIZE E s
      = kb.toNat % BLOCK_SIZE E s := by
    rw [Nat.add_comm (n * BLOCK_SIZE E s), Nat.add_mul_mod_self_right]
  have hya : (((n * BLOCK_SIZE E s : Nat) : Int)).toNat ≤ fa.length := by
    rw [Int.toNat_ofNat, hfa]
  rw [dequantize_row_eq E U s (xa ++ xb) (fa ++ fb) _ hK
      (by rw [hKn, List.length_append, hfa]; omega),
    dequantize_row_eq E U s xa fa _ (Int.ofNat_nonneg _) hya,
    dequantize_row_eq E U s xb fb kb hkb hfb]
  simp only
  have hdropa : fa.drop (n * BLOCK_SIZE E s) = [] := by
    rw [← hfa]
    exact List.drop_length _
  rw [decode_floats_full_length _ _ _ U xa fa n hQ, Int.toNat_ofNat, hdropa,
    List.append_nil, hKn]
  have hdropf : (fa ++ fb).drop (n * BLOCK_SIZE E s + kb.toNat) = fb.drop kb.toNat := by
    rw [← hfa]
    exact List.drop_append _
  have hdropf0 : (fa ++ fb).drop (n * BLOCK_SIZE E s) = fb := by
    rw [← hfa]
    exact List.drop_left _ _
  have hdropx : (xa ++ xb).drop n = xb := by
    rw [← hxa]
    exact List.drop_left _ _
  have hget : (xa ++ xb).getD (n + kb.toNat / BLOCK_SIZE E s) default
      = xb.getD (kb.toNat / BLOCK_SIZE E s) default := by
    rw [List.getD_eq_getElem?_getD, List.getD_eq_getElem?_getD,
      List.getElem?_append_right (by rw [hxa]; exact Nat.le_add_right _ _), hxa,
      Nat.add_sub_cancel_left]
  rw [hdropf]
  unfold decode_floats
  rw [hKn, hdiv, hmod, generic_decode_add, hdropx, hdropf0, hget,
    generic_decode_append_left _ _ _ xa xb fa fb n (Nat.le_of_eq hxa.symm)
      (Nat.le_of_eq hfa.symm)]
  simp only [List.append_assoc]

theorem test_quantize_is_function : encode_is_function test_quantize := by
  intro w c o o2 m m2 b ho _ hcb
  unfold test_quantize
  split_ifs with h <;> simp [ho, hcb]

theorem encode_step_indep (QK cb : Nat) (q : QuantizeFn) (hfun : encode_is_function q)
    (U U2 : Indeterminate) (i i2 : Nat) (w : List float) (b : block_africa) :
    encode_step QK cb q U i w b = encode_step QK cb q U2 i2 w b := by
  obtain ⟨hs, ho⟩ := hfun w (size_t QK) b.qs b.qs (encode_meta QK cb U i)
    (encode_meta QK cb U2 i2) (uint32_t QK) rfl rfl rfl
  unfold encode_step
  simp only
  cases hsucc : (q w (size_t QK) b.qs (encode_meta QK cb U i) (uint32_t QK)).success
  · rw [hsucc] at hs
    rw [← hs]
    rfl
  · obtain ⟨h1, h2, h3⟩ := ho hsucc
    rw [hsucc] at hs
    rw [← hs, h1, h2, h3]

/-- With an encode that is a function of the values, the records do not depend on the
uninitialised locals. -/
theorem quantize_row_indep (E : Env) (U U2 : Indeterminate) (s : Scheme)
    (hfun : encode_is_function (encode E s)) (x : List float) (y : List block_africa)
    (k : Int) (hk : 0 ≤ k) (hx : k.toNat ≤ x.length) :
    (quantize_row E U s x y k).1 = (quantize_row E U2 s x y k).1 := by
  have hQ := BLOCK_SIZE_pos E s
  apply List.ext_getElem?
  intro j
  rw [quantize_row_getElem?, quantize_row_getElem?,
    weights_at_eq_block_elems _ U x k hQ hk hx j,
    weights_at_eq_block_elems _ U2 x k hQ hk hx j]
  cases y[j]? with
  | none => rfl
  | some b =>
    simp only [Option.map_some']
    split
    · rw [encode_step_indep _ _ _ hfun U U2 j j]
    · rfl

/-- C17: for each scheme, for every row `a` of `n` full blocks and every row `b`, the
records the row quantizer writes for `a ++ b` are the records for `a` followed by the
records for `b`, the uninitialised metadata of block `i` of `b` being that of block
`n + i` of `a ++ b`; with an encode that is a function of the values the uninitialised
locals play no part.  And the floats the row dequantizer produces for `n` records
followed by further records, with the two lengths added, are the floats for the `n`
records followed by the floats for the further records. -/
theorem C17_concatenation (E : Env) (U : Indeterminate) (s : Scheme)
    (a b : List float) (ya yb : List block_africa) (xa xb : List block_africa)
    (fa fb : List float) (n : Nat)
    (ha : a.length = n * BLOCK_SIZE E s) (hya : ya.length = n)
    (hxa : xa.length = n) (hfa : fa.length = n * BLOCK_SIZE E s) :
    (quantize_row E U s (a ++ b) (ya ++ yb) ((a ++ b).length : Int)).1
        = (quantize_row E U s a ya (a.length : Int)).1
          ++ (quantize_row E (U.shift n) s b yb (b.length : Int)).1
    ∧ (encode_is_function (encode E s) →
        (quantize_row E U s (a ++ b) (ya ++ yb) ((a ++ b).length : Int)).1
          = (quantize_row E U s a ya (a.length : Int)).1
            ++ (quantize_row E U s b yb (b.length : Int)).1)
    ∧ (dequantize_row E U s (xa ++ xb) (fa ++ fb) ((fa ++ fb).length : Int)).1
        = (dequantize_row E U s xa fa (fa.length : Int)).1
          ++ (dequantize_row E U s xb fb (fb.length : Int)).1 := by
  have hab : (((a ++ b).length : Nat) : Int)
      = ((n * BLOCK_SIZE E s : Nat) : Int) + (b.length : Int) := by
    rw [List.length_append, ha, Int.ofNat_add]
  have hfab : (((fa ++ fb).length : Nat) : Int)
      = ((n * BLOCK_SIZE E s : Nat) : Int) + (fb.length : Int) := by
    rw [List.length_append, hfa, Int.ofNat_add]
  have hq := quantize_row_append E U s a b ya yb n (b.length : Int) (Int.ofNat_nonneg _)
    ha hya
  refine ⟨?_, ?_, ?_⟩
  · rw [hab, ha]
    exact hq
  · intro hfun
    rw [hab, ha, hq,
      quantize_row_indep E (U.shift n) U s hfun b yb (b.length : Int) (Int.ofNat_nonneg _)
        (by rw [Int.toNat_ofNat])]
  · rw [hfab, hfa]
    exact dequantize_row_append E U s xa xb fa fb n (fb.length : Int) (Int.ofNat_nonneg _)
      hxa hfa (by rw [Int.toNat_ofNat])

/-- C17 on a row of one block of four followed by a row of six floats. -/
theorem C17_concatenation_witness :
    ([1, 2, 3, (4 : float)].length = 1 * BLOCK_SIZE test_env .africa_1_58
      ∧ (test_records 1 2).length = 1
      ∧ [(⟨2, 1, [1, 2, 0, 1]⟩ : block_africa)].length = 1
      ∧ (List.replicate 4 (77 : float)).length = 1 * BLOCK_SIZE test_env .africa_1_58)
    ∧ (quantize_row test_env test_junk .africa_1_58 ([1, 2, 3, 4] ++ [99, 5, 6, 7, 1, 1])
        (test_records 1 2 ++ test_records 2 2)
        (([1, 2, 3, 4] ++ [99, 5, 6, 7, 1, (1 : float)]).length : Int)).1
      = (quantize_row test_env test_junk .africa_1_58 [1, 2, 3, 4] (test_records 1 2)
          (([1, 2, 3, (4 : float)]).length : Int)).1
        ++ (quantize_row test_env test_junk .africa_1_58 [99, 5, 6, 7, 1, 1]
          (test_records 2 2) (([99, 5, 6, 7, 1, (1 : float)]).length : Int)).1
    ∧ (quantize_row test_env test_junk .africa_1_58 ([1, 2, 3, 4] ++ [99, 5, 6, 7, 1, 1])
        (test_records 1 2 ++ test_records 2 2) 10).1
      = [⟨10, 4, [1, 2]⟩, ⟨0, 0, [0, 0]⟩, ⟨2, 4, [1, 1]⟩] :=
  ⟨⟨by decide, by decide, by decide, by decide⟩,
    (C17_concatenation test_env test_junk .africa_1_58 [1, 2, 3, 4] [99, 5, 6, 7, 1, 1]
      (test_records 1 2) (test_records 2 2) [⟨2, 1, [1, 2, 0, 1]⟩]
      [⟨2, 1, [9, 2, 0, 1]⟩, ⟨3, 1, [1, 2, 0, 1]⟩] (List.replicate 4 77)
      (List.replicate 6 77) 1 (by decide) (by decide) (by decide) (by decide)).2.1
      test_quantize_is_function,
    by decide⟩

end AfricaQuant
